import Mathlib

/-!
Shallow embedding of the core of the zk-lsp.typst note indexer:
the stateless parser (`src/parser.rs`), the status/formatting engine
(`src/handlers/formatting.rs`) and the concurrent note index (`src/index.rs`).

Modelling conventions:
* Rust strings are modelled as `List Char` (`Str`).  Rust `char` and Lean
  `Char` agree (Unicode scalar values).  Byte offsets and byte lengths are
  computed through the UTF-8 width `utf8Len` of each character, so the
  byte-based operations of the source (`str::len`, slicing, offsets stored in
  `RefOccurrence`) are represented exactly.
* `str::lines`, `str::trim_start`, `str::trim`, `str::contains`,
  `str::replace`, `str::strip_prefix` and `str::split` are embedded as
  executable functions with Rust's documented semantics (`\r\n` handling in
  `rustLines`, Unicode `White_Space` in `isRustWhitespace`, …).
* The regexes `@(\d{10})`, `^=\s+.*<(\d{10})>`,
  `#evolution_link\s*\(\s*<(\d{10})>\s*\)` and the `#alternative_link`
  variant are embedded as deterministic scanners with the leftmost-first
  match semantics of the `regex` crate (greedy `.*` picks the last
  `<id>` group on the title line; `captures_iter` resumes after each match).
  `\d` is the crate's default Unicode-aware class `\p{Nd}` — embedded as
  `isNd`, the decimal-digit runs of the Unicode 15.1 `Nd` general category
  (the table the crate ships); match end offsets account for multibyte
  digits.
* File I/O is modelled by passing the read result explicitly: an
  `Option Str` standing for `fs::read_to_string` (`none` = read error), and
  a map `Str → Option Str` from a note id to the content of
  `note_dir/<id>.typ` for the formatting handler's lookups.
* The two `DashMap`s of the index are modelled extensionally as functions
  `Str → Option β`; a note path inside the single note directory is
  identified by its file stem (`PathBuf` equality coincides with stem
  equality there).
* `u32`/`usize` casts of line numbers and offsets are modelled as `Nat`
  (the source never exceeds `u32` for realistic inputs and performs no
  arithmetic that could wrap).
-/

namespace ZkSpec

/-- Rust `&str` / `String`, modelled as its list of Unicode scalar values. -/
abbrev Str := List Char

/-- Number of bytes of the UTF-8 encoding of a character (Rust `char::len_utf8`). -/
def utf8Len (c : Char) : Nat :=
  if c.toNat < 0x80 then 1
  else if c.toNat < 0x800 then 2
  else if c.toNat < 0x10000 then 3
  else 4

/-- Number of UTF-16 code units of a character (Rust `char::len_utf16`). -/
def utf16Len (c : Char) : Nat :=
  if c.toNat < 0x10000 then 1 else 2

/-- Byte length of a string (Rust `str::len`). -/
def byteLen (s : Str) : Nat := (s.map utf8Len).sum

/-- Rust `char::is_whitespace`: the Unicode `White_Space` property
(the exact 25 code points having that property). -/
def isRustWhitespace (c : Char) : Bool :=
  let n := c.toNat
  n = 0x20 || (0x9 ≤ n && n ≤ 0xD) || n = 0x85 || n = 0xA0 || n = 0x1680 ||
    (0x2000 ≤ n && n ≤ 0x200A) || n = 0x2028 || n = 0x2029 || n = 0x202F ||
    n = 0x205F || n = 0x3000

/-- Rust `str::trim_start`. -/
def trimStart (s : Str) : Str := s.dropWhile isRustWhitespace

/-- Rust `str::trim_end`. -/
def trimEnd (s : Str) : Str := (s.reverse.dropWhile isRustWhitespace).reverse

/-- Rust `str::trim`. -/
def rustTrim (s : Str) : Str := trimEnd (trimStart s)

/-- Rust `str::contains` for a literal pattern: substring search. -/
def strContains (hay needle : Str) : Bool :=
  if needle.isPrefixOf hay then true
  else
    match hay with
    | [] => false
    | _ :: t => strContains t needle

/-- Start code points of the runs of ten consecutive decimal digits that make
up the Unicode general category `Nd` (Unicode 15.1; every `Nd` range is a run
`s .. s+9` carrying the digit values `0`–`9`). -/
def ndRangeStarts : List Nat :=
  [0x30, 0x660, 0x6F0, 0x7C0, 0x966, 0x9E6, 0xA66, 0xAE6, 0xB66, 0xBE6,
   0xC66, 0xCE6, 0xD66, 0xDE6, 0xE50, 0xED0, 0xF20, 0x1040, 0x1090, 0x17E0,
   0x1810, 0x1946, 0x19D0, 0x1A80, 0x1A90, 0x1B50, 0x1BB0, 0x1C40, 0x1C50,
   0xA620, 0xA8D0, 0xA900, 0xA9D0, 0xA9F0, 0xAA50, 0xABF0, 0xFF10, 0x104A0,
   0x10D30, 0x11066, 0x110F0, 0x11136, 0x111D0, 0x112F0, 0x11450, 0x114D0,
   0x11650, 0x116C0, 0x11730, 0x118E0, 0x11950, 0x11C50, 0x11D50, 0x11DA0,
   0x11F50, 0x16A60, 0x16AC0, 0x16B50, 0x1D7CE, 0x1D7D8, 0x1D7E2, 0x1D7EC,
   0x1D7F6, 0x1E140, 0x1E2F0, 0x1E4F0, 0x1E950, 0x1FBF0]

/-- `\d` of the `regex` crate, which is Unicode-aware by default:
membership in the general category `Nd` (`\p{Nd}`). -/
def isNd (c : Char) : Bool :=
  ndRangeStarts.any fun s => s ≤ c.toNat && c.toNat ≤ s + 9

/-- One step of Rust `str::lines`: `racc` is the current line collected in
reverse; a line that was terminated by `\n` also loses one trailing `\r`. -/
def stripTrailingCRrev (racc : Str) : Str :=
  match racc with
  | '\r' :: t => t.reverse
  | _ => racc.reverse

/-- Worker for `rustLines`: splits at `\n`, strips a `\r` preceding each `\n`,
and does not emit a final empty segment (the final line ending is optional). -/
def rustLinesGo (racc : Str) : Str → List Str
  | [] => if racc = [] then [] else [racc.reverse]
  | c :: rest =>
    if c = '\n' then stripTrailingCRrev racc :: rustLinesGo [] rest
    else rustLinesGo (c :: racc) rest

/-- Rust `str::lines`. -/
def rustLines (s : Str) : List Str := rustLinesGo [] s

/-- Join lines with `\n` (the `lines.join("\n")` of the formatting handlers). -/
def joinNL : List Str → Str
  | [] => []
  | [l] => l
  | l :: ls => l ++ '\n' :: joinNL ls

/-- Whether the content ends with a newline (`str::ends_with('\n')`). -/
def endsWithNL (s : Str) : Bool := s.getLast? = some '\n'

/-- Worker for `replaceAll`, structurally recursive on a fuel that the
wrapper instantiates with the string length (each step consumes at least one
character, so the fuel never runs out; recursion on fuel keeps the function
kernel-reducible). -/
def replaceAllF (pat rep : Str) : Nat → Str → Str
  | 0, s => s
  | _ + 1, [] => []
  | fuel + 1, c :: rest =>
    if pat ≠ [] ∧ pat.isPrefixOf (c :: rest) then
      rep ++ replaceAllF pat rep fuel ((c :: rest).drop pat.length)
    else
      c :: replaceAllF pat rep fuel rest

/-- Rust `str::replace(pat, rep)` for a literal nonempty pattern: replaces all
non-overlapping occurrences, left to right.  (The source only invokes it with
the nonempty tag tokens; for `pat = []` this embedding leaves `s` unchanged.) -/
def replaceAll (pat rep s : Str) : Str := replaceAllF pat rep s.length s

/-! ## Parser data model (`src/parser.rs`) -/

/-- Counts of complete / incomplete checklist markers (`TodoStatus`). -/
structure TodoStatus where
  completed : Nat
  incomplete : Nat
deriving DecidableEq

/-- Derived Todo/Wip/Done classification (`StatusTag`). -/
inductive StatusTag where
  | Todo
  | Wip
  | Done
deriving DecidableEq

/-- One textual occurrence of `@<id>` inside a line (`RefOccurrence`);
`startChar`/`endChar` are byte offsets within the line. -/
structure RefOccurrence where
  id : Str
  line : Nat
  startChar : Nat
  endChar : Nat
deriving DecidableEq

/-- Parsed facts of one note's header (`NoteHeader`). -/
structure NoteHeader where
  id : Str
  title : Str
  archived : Bool
  legacy : Bool
  alt_id : Option Str
  evo_id : Option Str
  aliases : List Str
  abstract_text : Option Str
  keywords : List Str
  tag_line_idx : Nat
  title_line_idx : Nat
deriving DecidableEq

/-- The literal import marker line located by `parse_header`. -/
def importLit : Str := ("#import \"../include.typ\": *").toList

/-- Match of `<(\d{10})>` starting at character position `j` of the line. -/
def angleIdAt (l : Str) (j : Nat) : Option Str :=
  let ds := (l.drop (j + 1)).take 10
  if l[j]? = some '<' && ds.length = 10 && ds.all isNd &&
      l[j + 11]? = some '>' then
    some ds
  else none

/-- Match of `RE_TITLE = ^=\s+.*<(\d{10})>` against a full line, returning the
position `j` of the captured `<id>` and the id.  Greedy `.*` makes the
leftmost-first match capture the last `<id>` group of the line (`.` cannot
match `\n`, and a line contains none). -/
def reTitleMatch (l : Str) : Option (Nat × Str) :=
  if l[0]? = some '=' && (l[1]?.map isRustWhitespace).getD false then
    ((List.range l.length).filterMap fun j =>
      if j ≥ 2 then (angleIdAt l j).map fun id => (j, id) else none).getLast?
  else none

/-- Last-`<`-split of Rust `str::rsplit_once('<')`. -/
def rsplitOnceLT (s : Str) : Option (Str × Str) :=
  match s.reverse.findIdx? (fun c => c = '<') with
  | none => none
  | some k =>
    let i := s.length - 1 - k
    some (s.take i, s.drop (i + 1))

/-- Title text extracted from the whole `RE_TITLE` match: the source trims the
leading `=` characters, trims whitespace, and keeps what precedes the last
`<`, trimmed again. -/
def titleOfMatch (l : Str) (j : Nat) : Str :=
  let wholeM := l.take (j + 12)
  let afterEq := wholeM.dropWhile (fun c => c = '=')
  match rsplitOnceLT (rustTrim afterEq) with
  | some pr => rustTrim pr.1
  | none => []

/-- Deterministic match of `#evolution_link\s*\(\s*<(\d{10})>\s*\)` (or the
`#alternative_link` variant, per `lit`) anchored at the start of `s`.
Greedy `\s*` before a non-whitespace literal consumes exactly the maximal
whitespace run. -/
def matchLinkAt (lit : Str) (s : Str) : Option Str :=
  if lit.isPrefixOf s then
    let s1 := (s.drop lit.length).dropWhile isRustWhitespace
    match s1 with
    | '(' :: s2 =>
      match s2.dropWhile isRustWhitespace with
      | '<' :: s3 =>
        let ds := s3.take 10
        if ds.length = 10 && ds.all isNd then
          match s3.drop 10 with
          | '>' :: s4 =>
            match s4.dropWhile isRustWhitespace with
            | ')' :: _ => some ds
            | _ => none
          | _ => none
        else none
      | _ => none
    | _ => none
  else none

/-- Leftmost match of the link regex in a line: try every start position. -/
def scanLink (lit : Str) : Str → Option Str
  | [] => matchLinkAt lit []
  | c :: t =>
    match matchLinkAt lit (c :: t) with
    | some id => some id
    | none => scanLink lit t

/-- Rust `val.split(',').map(trim).filter(non-empty)` of the metadata lists. -/
def splitCommaTrim (s : Str) : List Str :=
  ((s.splitOn ',').map rustTrim).filter (fun x => x ≠ [])

/-- Metadata block scan of `parse_header` over the lines before the import
line: enters at `/* Metadata:`, stops at `*/`, and reads `Aliases:`,
`Abstract:` (kept only when nonempty) and `Keyword:` prefixed lines. -/
def metaGo : List Str → Bool → List Str → Option Str → List Str →
    List Str × Option Str × List Str
  | [], _, a, ab, k => (a, ab, k)
  | l :: rest, inMeta, a, ab, k =>
    if rustTrim l = ("/* Metadata:").toList then metaGo rest true a ab k
    else if rustTrim l = ("*/").toList then (a, ab, k)
    else if inMeta then
      if ("Aliases:").toList.isPrefixOf l then
        metaGo rest inMeta (splitCommaTrim (l.drop 8)) ab k
      else if ("Abstract:").toList.isPrefixOf l then
        let t := rustTrim (l.drop 9)
        metaGo rest inMeta a (if t = [] then ab else some t) k
      else if ("Keyword:").toList.isPrefixOf l then
        metaGo rest inMeta a ab (splitCommaTrim (l.drop 8))
      else metaGo rest inMeta a ab k
    else metaGo rest inMeta a ab k

/-- Parser `parse_header`: locates the import marker, reads the title line at
`+3` (must match `RE_TITLE`), the tag line at `+4`, the link line at `+5`,
and the metadata block before the import line. -/
def parse_header (content : Str) : Option NoteHeader := do
  let lines := rustLines content
  let importIdx ← lines.findIdx? (fun l => rustTrim l = importLit)
  let titleLineIdx := importIdx + 3
  let tagLineIdx := importIdx + 4
  let titleLine ← lines[titleLineIdx]?
  let (j, id) ← reTitleMatch titleLine
  let title := titleOfMatch titleLine j
  let tagLine := (lines[tagLineIdx]?).getD []
  let archived := strContains tagLine ("#tag.archived").toList
  let legacy := strContains tagLine ("#tag.legacy").toList
  let linkLine := (lines[importIdx + 5]?).getD []
  let evoId := scanLink ("#evolution_link").toList linkLine
  let altId := scanLink ("#alternative_link").toList linkLine
  let meta :=
    if importIdx > 0 then metaGo (lines.take importIdx) false [] none []
    else ([], none, [])
  pure
    { id := id
      title := title
      archived := archived
      legacy := legacy
      alt_id := altId
      evo_id := evoId
      aliases := meta.1
      abstract_text := meta.2.1
      keywords := meta.2.2
      tag_line_idx := tagLineIdx
      title_line_idx := titleLineIdx }

/-- Worker of `count_todos`: line-by-line scan with the fenced-code flag,
accumulating the two counters exactly as the source loop does. -/
def countTodosGo (st : TodoStatus) (inCode : Bool) : List Str → TodoStatus
  | [] => st
  | l :: rest =>
    let trimmed := trimStart l
    if ("```").toList.isPrefixOf trimmed then countTodosGo st (!inCode) rest
    else if inCode then countTodosGo st inCode rest
    else if ("- [").toList.isPrefixOf trimmed && byteLen trimmed ≥ 5 then
      let marker := (trimmed[3]?).getD ' '
      if marker = 'x' || marker = 'X' then
        countTodosGo { st with completed := st.completed + 1 } inCode rest
      else if marker = ' ' then
        countTodosGo { st with incomplete := st.incomplete + 1 } inCode rest
      else countTodosGo st inCode rest
    else countTodosGo st inCode rest

/-- Parser `count_todos`. -/
def count_todos (content : Str) : TodoStatus :=
  countTodosGo ⟨0, 0⟩ false (rustLines content)

/-- The prefix `s[..off]` of a string given a byte offset `off`; for a UTF-8
char-boundary offset this is exactly the Rust slice (`parse_header`'s callers
only pass boundaries — Rust panics otherwise, which is outside the model). -/
def takeBytes : Str → Nat → Str
  | [], _ => []
  | c :: r, off => if utf8Len c ≤ off then c :: takeBytes r (off - utf8Len c) else []

/-- Parser `byte_to_utf16`: UTF-16 length of `s[..off]`. -/
def byte_to_utf16 (s : Str) (off : Nat) : Nat :=
  ((takeBytes s off).map utf16Len).sum

/-- Worker for `refsInLine`, structurally recursive on a fuel that the
wrapper instantiates with the string length (each step consumes at least one
character; recursion on fuel keeps the function kernel-reducible). -/
def refsInLineF : Nat → Str → Nat → List (Nat × Str)
  | 0, _, _ => []
  | _ + 1, [], _ => []
  | fuel + 1, c :: rest, off =>
    if c = '@' && (rest.take 10).length = 10 && (rest.take 10).all isNd then
      (off, rest.take 10) ::
        refsInLineF fuel (rest.drop 10) (off + 1 + byteLen (rest.take 10))
    else
      refsInLineF fuel rest (off + utf8Len c)

/-- Scanner for `RE_ID_REF.captures_iter` within one line: at each `@`
followed by 10 decimal digits a match `(byte offset, id)` is produced and the
scan resumes after the match (whose byte length is `1 + byteLen digits`);
`off` is the byte offset reached so far. -/
def refsInLine (s : Str) (off : Nat) : List (Nat × Str) := refsInLineF s.length s off

/-- Parser `find_all_refs`: per line, all `@(\d{10})` matches, with the byte
offsets of the whole match within the line (`end = start + 1 +` the UTF-8
byte length of the ten captured digits). -/
def find_all_refs (content : Str) : List RefOccurrence :=
  ((rustLines content).enum.map fun p =>
    (refsInLine p.2 0).map fun m =>
      { id := m.2, line := p.1, startChar := m.1,
        endChar := m.1 + 1 + byteLen m.2 }).flatten

/-- Parser `compute_status_tag`. -/
def compute_status_tag (todos : TodoStatus) (hasArchived : Bool) : Option StatusTag :=
  let hasTodos := todos.completed > 0 || todos.incomplete > 0
  if !hasTodos then none
  else if hasArchived then some StatusTag.Done
  else if todos.incomplete = 0 && todos.completed > 0 then some StatusTag.Done
  else if todos.completed > 0 then some StatusTag.Wip
  else some StatusTag.Todo

/-! ## Status & propagation engine (`src/handlers/formatting.rs`) -/

/-- An LSP `TextEdit` restricted to the shape the engine produces (a range
given by start/end line and character, plus the replacement text). -/
structure TextEdit where
  startLine : Nat
  startChar : Nat
  endLine : Nat
  endChar : Nat
  newText : Str
deriving DecidableEq

/-- Handler `is_todo_line`: trimmed form starts with `- [` and is at least 5
bytes long. -/
def is_todo_line (l : Str) : Bool :=
  let t := trimStart l
  ("- [").toList.isPrefixOf t && byteLen t ≥ 5

/-- Handler `get_todo_state`: the 4th character of the trimmed form, when the
line has the todo shape. -/
def get_todo_state (l : Str) : Option Char :=
  let t := trimStart l
  if ("- [").toList.isPrefixOf t && byteLen t ≥ 5 then t[3]?
  else none

/-- Handler `replace_todo_state`: writes `newState` at character position
`indent_len + 3` of the line, where `indent_len` is the BYTE length of the
leading whitespace (the source indexes the `Vec<char>` of the line with this
byte count). -/
def replace_todo_state (l : Str) (newState : Char) : Option Str :=
  let indentLen := byteLen l - byteLen (trimStart l)
  let trimmed := trimStart l
  if ("- [").toList.isPrefixOf trimmed && byteLen trimmed ≥ 5 then
    let statePos := indentLen + 3
    if statePos < l.length then some (l.set statePos newState)
    else none
  else none

/-- The literal tag token of a status (`#tag.done` / `#tag.wip` / `#tag.todo`). -/
def tagLit : StatusTag → Str
  | StatusTag.Done => ("#tag.done").toList
  | StatusTag.Wip => ("#tag.wip").toList
  | StatusTag.Todo => ("#tag.todo").toList

/-- The status token detected on a tag line by `compute_tag_edit`, by literal
containment, tested in the order done, wip, todo. -/
def currentTagStr (tagLine : Str) : Option Str :=
  if strContains tagLine (tagLit StatusTag.Done) then some (tagLit StatusTag.Done)
  else if strContains tagLine (tagLit StatusTag.Wip) then some (tagLit StatusTag.Wip)
  else if strContains tagLine (tagLit StatusTag.Todo) then some (tagLit StatusTag.Todo)
  else none

/-- Handler `compute_tag_edit`: re-derives the status tag and, if the token on
the tag line differs, produces the single-line replacement edit. -/
def compute_tag_edit (content : Str) : Option TextEdit := do
  let header ← parse_header content
  let todos := count_todos content
  let newTag ← compute_status_tag todos header.archived
  let newTagStr := tagLit newTag
  let lines := rustLines content
  let tagLine ← lines[header.tag_line_idx]?
  let currentTag := currentTagStr tagLine
  if currentTag = some newTagStr then none
  else
    let newLine :=
      match currentTag with
      | some old => replaceAll old newTagStr tagLine
      | none => tagLine ++ ' ' :: newTagStr
    some
      { startLine := header.tag_line_idx
        startChar := 0
        endLine := header.tag_line_idx
        endChar := byteLen tagLine
        newText := newLine }

/-- Handler `ref_is_done` for the note `note_dir/<id>.typ`: `fs` maps a note
id to the result of `fs::read_to_string` on that file (`none` = I/O error).
The note must read, parse, and have an effective tag line containing
`#tag.done` (the tag line `compute_tag_edit` would produce, or the existing
one when no edit is needed). -/
def ref_is_done (fs : Str → Option Str) (id : Str) : Bool :=
  match fs id with
  | none => false
  | some content =>
    match parse_header content with
    | none => false
    | some header =>
      let lines := rustLines content
      let existing := (lines[header.tag_line_idx]?).getD []
      let effective :=
        match compute_tag_edit content with
        | some e => e.newText
        | none => existing
      strContains effective (tagLit StatusTag.Done)

/-- The `@id` captures of `RE_TODO_ID` (the same regex as `RE_ID_REF`) on one
line, in order. -/
def lineRefIds (l : Str) : List Str := (refsInLine l 0).map Prod.snd

/-- One line of `update_ref_checkboxes`: the possibly replaced line and
whether it changed. -/
def updateRefLine (fs : Str → Option Str) (l : Str) : Str × Bool :=
  if !is_todo_line l then (l, false)
  else
    let ids := lineRefIds l
    if ids = [] then (l, false)
    else
      let allDone := ids.all (ref_is_done fs)
      let newState := if allDone then 'x' else ' '
      if get_todo_state l ≠ some newState then
        match replace_todo_state l newState with
        | some nl => (nl, true)
        | none => (l, false)
      else (l, false)

/-- Handler `update_ref_checkboxes`: resolves reference-based checkboxes line
by line; if no line changed the original content is returned verbatim,
otherwise the lines are re-joined (restoring a trailing newline). -/
def update_ref_checkboxes (fs : Str → Option Str) (content : Str) : Str :=
  let lines := rustLines content
  let processed := lines.map (updateRefLine fs)
  if processed.all (fun p => p.2 = false) then content
  else
    joinNL (processed.map Prod.fst) ++ (if endsWithNL content then ['\n'] else [])

/-- The `(line index, indent)` list of checklist items collected by
`update_nested_checkboxes`; the indent is the byte length of the leading
whitespace. -/
def collectItemsFrom (i : Nat) : List Str → List (Nat × Nat)
  | [] => []
  | l :: r =>
    if is_todo_line l then (i, byteLen l - byteLen (trimStart l)) :: collectItemsFrom (i + 1) r
    else collectItemsFrom (i + 1) r

/-- Checklist items of the line list (`enumerate().filter_map(…)`). -/
def collectItems (ls : List Str) : List (Nat × Nat) := collectItemsFrom 0 ls

/-- Line indices of the descendants of item `k`: the following items with
strictly greater indent, up to the first with smaller-or-equal indent. -/
def descsOf (items : List (Nat × Nat)) (k : Nat) (ind : Nat) : List Nat :=
  (((items.drop (k + 1)).takeWhile fun p => ind < p.2).map Prod.fst)

/-- One iteration of the bottom-up aggregation loop, at item index `k`. -/
def stepItem (items : List (Nat × Nat)) (lines : List Str) (k : Nat) : List Str :=
  match items[k]? with
  | none => lines
  | some (li, ind) =>
    let descs := descsOf items k ind
    if descs = [] then lines
    else
      let allDone := descs.all fun ci => get_todo_state ((lines[ci]?).getD []) = some 'x'
      let newState := if allDone then 'x' else ' '
      if get_todo_state ((lines[li]?).getD []) = some newState then lines
      else
        match replace_todo_state ((lines[li]?).getD []) newState with
        | some nl => lines.set li nl
        | none => lines

/-- The loop `for i in (0..todo_items.len()).rev()`: processes item indices
`m - 1, m - 2, …, 0`. -/
def runRev (items : List (Nat × Nat)) : Nat → List Str → List Str
  | 0, lines => lines
  | k + 1, lines => runRev items k (stepItem items lines (k))

/-- Handler `update_nested_checkboxes`: bottom-up aggregation of nested
checkbox states over the statically collected item list. -/
def update_nested_checkboxes (content : Str) : Str :=
  let lines := rustLines content
  let items := collectItems lines
  let lines1 := runRev items items.length lines
  joinNL lines1 ++ (if endsWithNL content then ['\n'] else [])

/-- A line of single-byte characters containing no line terminator: on such
lines byte positions and character positions coincide, so the byte-based
indexing of `replace_todo_state` hits the state character. -/
def CleanLine (l : Str) : Prop := ∀ c ∈ l, c.toNat < 128 ∧ c ≠ '\n' ∧ c ≠ '\r'

/-- Item `k` needs no further aggregation: it has no descendants, or its
state already equals the state derived from its descendants. -/
def Settled (items : List (Nat × Nat)) (lines : List Str) (k : Nat) : Prop :=
  ∀ li ind, items[k]? = some (li, ind) →
    descsOf items k ind = [] ∨
    get_todo_state ((lines[li]?).getD []) =
      some (if (descsOf items k ind).all
          (fun ci => get_todo_state ((lines[ci]?).getD []) = some 'x') then 'x' else ' ')

/-- The item list carries strictly increasing line indices (collection order). -/
def SortedItems (items : List (Nat × Nat)) : Prop :=
  ∀ (k1 k2 : Nat) (p1 p2 : Nat × Nat),
    k1 < k2 → items[k1]? = some p1 → items[k2]? = some p2 → p1.1 < p2.1

/-! ## Concurrent note index (`src/index.rs`)

A note path inside the note directory is identified by its file stem; the
`DashMap`s are modelled extensionally as functions from a key to an optional
value.  File reads are passed in explicitly (`Option Str`, `none` standing
for an `fs::read_to_string` error, after which `index_file` mutates
nothing). -/

/-- Index entry (`NoteInfo`): header fields plus the owning path (stem). -/
structure NoteInfo where
  id : Str
  title : Str
  archived : Bool
  legacy : Bool
  alt_id : Option Str
  evo_id : Option Str
  aliases : List Str
  keywords : List Str
  abstract_text : Option Str
  path : Str
deriving DecidableEq

/-- A reference location (`BacklinkLocation`): owning file (stem) and UTF-16
line/character coordinates. -/
structure BacklinkLocation where
  file : Str
  line : Nat
  startChar : Nat
  endChar : Nat
deriving DecidableEq

/-- The two maps of `NoteIndex`. -/
structure IndexState where
  notes : Str → Option NoteInfo
  backlinks : Str → Option (List BacklinkLocation)

/-- Pointwise map update. -/
def mapUpdate {β : Type} (m : Str → Option β) (key : Str) (v : Option β) :
    Str → Option β :=
  fun k => if k = key then v else m k

/-- The `NoteInfo` built by `index_file` from a parsed header and the path. -/
def infoOfHeader (h : NoteHeader) (path : Str) : NoteInfo :=
  { id := h.id
    title := h.title
    archived := h.archived
    legacy := h.legacy
    alt_id := h.alt_id
    evo_id := h.evo_id
    aliases := h.aliases
    keywords := h.keywords
    abstract_text := h.abstract_text
    path := path }

/-- The `BacklinkLocation` built for one `RefOccurrence`, converting the byte
offsets to UTF-16 with the owning line's text. -/
def locOfRef (path : Str) (lines : List Str) (r : RefOccurrence) : BacklinkLocation :=
  let lineText := (lines[r.line]?).getD []
  { file := path
    line := r.line
    startChar := byte_to_utf16 lineText r.startChar
    endChar := byte_to_utf16 lineText r.endChar }

/-- Appending one backlink location (`self.backlinks.entry(id).or_default().push(loc)`). -/
def pushLoc (path : Str) (lines : List Str) (st : IndexState) (r : RefOccurrence) :
    IndexState :=
  { st with
    backlinks :=
      mapUpdate st.backlinks r.id
        (some (((st.backlinks r.id).getD []) ++ [locOfRef path lines r])) }

/-- Index `index_file`: reads the file (`none` = I/O error, nothing happens),
inserts the metadata entry keyed by the header's own id when the header
parses, and appends one backlink location per `@id` occurrence. -/
def index_file (st : IndexState) (path : Str) (content : Option Str) : IndexState :=
  match content with
  | none => st
  | some content =>
    let st1 :=
      match parse_header content with
      | some h => { st with notes := mapUpdate st.notes h.id (some (infoOfHeader h path)) }
      | none => st
    let lines := rustLines content
    let refs := find_all_refs content
    refs.foldl (pushLoc path lines) st1

/-- Index `remove_backlinks_from`: per target id, drop the locations owned by
`path`, then drop the ids whose list became empty. -/
def remove_backlinks_from (st : IndexState) (path : Str) : IndexState :=
  { st with
    backlinks := fun k =>
      match st.backlinks k with
      | none => none
      | some l =>
        let l1 := l.filter fun loc => loc.file ≠ path
        if l1 = [] then none else some l1 }

/-- Index `remove_by_path`: removes the metadata entry keyed by the file stem
and purges the path's backlink contributions. -/
def remove_by_path (st : IndexState) (path : Str) : IndexState :=
  remove_backlinks_from { st with notes := mapUpdate st.notes path none } path

/-- Index `update_file`: purge the path's old backlinks, then re-index. -/
def update_file (st : IndexState) (path : Str) (content : Option Str) : IndexState :=
  index_file (remove_backlinks_from st path) path content

/-- The empty index (`NoteIndex::new`, and the state after `clear()`). -/
def emptyIndex : IndexState := { notes := fun _ => none, backlinks := fun _ => none }

/-- Index `rebuild_full`: clears both maps and indexes each directory file
independently; `files` carries each candidate path with its read result. -/
def rebuild_full (files : List (Str × Option Str)) : IndexState :=
  files.foldl (fun st pc => index_file st pc.1 pc.2) emptyIndex

/-- Index `get_backlinks`. -/
def get_backlinks (st : IndexState) (id : Str) : List BacklinkLocation :=
  (st.backlinks id).getD []

/-- The index mutations reachable from the public interface: a full rebuild,
a single-file update, or a removal. -/
inductive IndexOp where
  | rebuild (files : List (Str × Option Str))
  | update (path : Str) (content : Option Str)
  | remove (path : Str)

/-- Apply one index operation. -/
def applyOp (st : IndexState) : IndexOp → IndexState
  | IndexOp.rebuild files => rebuild_full files
  | IndexOp.update path content => update_file st path content
  | IndexOp.remove path => remove_by_path st path

/-- Apply a sequence of index operations, oldest first. -/
def runOps (st : IndexState) (ops : List IndexOp) : IndexState :=
  ops.foldl applyOp st

/-! ## Specification-side reformulations

Definitions following the words of the specification / claims, to be compared
with the code-derived definitions above. -/

/-- The status-tag classification as the specification words it: absent
without checklist items; else Done when archived; else Done when every item is
complete; else Wip when at least one is complete; else Todo. -/
def statusTagClaim (t : TodoStatus) (archived : Bool) : Option StatusTag :=
  if t.completed = 0 ∧ t.incomplete = 0 then none
  else if archived then some StatusTag.Done
  else if t.incomplete = 0 then some StatusTag.Done
  else if t.completed ≥ 1 then some StatusTag.Wip
  else some StatusTag.Todo

/-- Reference matches per line as the frozen claim words them: one match per
`@` followed by exactly 10 decimal digits (a token with an 11th digit is
malformed and not matched).  Produces `(byte offset of the @, id)` pairs in
left-to-right order. -/
def refsInLineClaim (l : Str) : List (Nat × Str) :=
  (List.range l.length).filterMap fun p =>
    let ds := (l.drop (p + 1)).take 10
    if l[p]? = some '@' && ds.length = 10 && ds.all isNd &&
        !(((l.drop (p + 11)).take 1).any isNd) then
      some (byteLen (l.take p), ds)
    else none

/-- `find_all_refs` as the frozen claim words it (exactly-10-digit tokens). -/
def findAllRefsClaim (content : Str) : List RefOccurrence :=
  ((rustLines content).enum.map fun p =>
    (refsInLineClaim p.2).map fun m =>
      { id := m.2, line := p.1, startChar := m.1,
        endChar := m.1 + 1 + byteLen m.2 }).flatten

/-- Reference matches per line under the amended reading: one match per `@`
followed by AT LEAST 10 decimal digits, the id being the first 10 of them;
every character position is inspected (matches cannot overlap, an id
containing no `@`), in left-to-right order.  `off` is the byte offset of the
position reached. -/
def refsNoSkip : Str → Nat → List (Nat × Str)
  | [], _ => []
  | c :: rest, off =>
    (if c = '@' && (rest.take 10).length = 10 && (rest.take 10).all isNd then
      [(off, rest.take 10)]
    else []) ++ refsNoSkip rest (off + utf8Len c)

/-- `find_all_refs` under the amended reading. -/
def findAllRefsAmended (content : Str) : List RefOccurrence :=
  ((rustLines content).enum.map fun p =>
    (refsNoSkip p.2 0).map fun m =>
      { id := m.2, line := p.1, startChar := m.1,
        endChar := m.1 + 1 + byteLen m.2 }).flatten

/-- The checklist-line shape as the frozen claim words it: optional
indentation, `- [`, one state character, `]`. -/
def claimTodoShape (l : Str) : Bool :=
  match trimStart l with
  | '-' :: ' ' :: '[' :: _ :: ']' :: _ => true
  | _ => false

/-- `count_todos` as the frozen claim words it: a line is counted as a
checklist item exactly when it has `claimTodoShape` (closing bracket
required). -/
def countTodosClaimGo (st : TodoStatus) (inCode : Bool) : List Str → TodoStatus
  | [] => st
  | l :: rest =>
    if ("```").toList.isPrefixOf (trimStart l) then countTodosClaimGo st (!inCode) rest
    else if inCode then countTodosClaimGo st inCode rest
    else if claimTodoShape l then
      let marker := ((trimStart l)[3]?).getD ' '
      if marker = 'x' || marker = 'X' then
        countTodosClaimGo { st with completed := st.completed + 1 } inCode rest
      else if marker = ' ' then
        countTodosClaimGo { st with incomplete := st.incomplete + 1 } inCode rest
      else countTodosClaimGo st inCode rest
    else countTodosClaimGo st inCode rest

/-- `count_todos` per the frozen claim (with the `]` requirement). -/
def countTodosClaim (content : Str) : TodoStatus :=
  countTodosClaimGo ⟨0, 0⟩ false (rustLines content)

/-- The lines outside fenced code blocks, fence lines excluded, as the claim
describes the fence filtering. -/
def unfencedLines (inCode : Bool) : List Str → List Str
  | [] => []
  | l :: rest =>
    if ("```").toList.isPrefixOf (trimStart l) then unfencedLines (!inCode) rest
    else if inCode then unfencedLines inCode rest
    else l :: unfencedLines inCode rest

/-- The state character of a checklist line (4th character of the trimmed
form, a blank when absent). -/
def todoMarker (l : Str) : Char := ((trimStart l)[3]?).getD ' '

/-- A counted completed item under the amended claim: the code's checklist
shape (`- [` prefix, trimmed byte length at least 5, no `]` required) with
state character `x` or `X`. -/
def isCompletedItem (l : Str) : Bool :=
  is_todo_line l && (todoMarker l = 'x' || todoMarker l = 'X')

/-- A counted incomplete item under the amended claim: the code's checklist
shape with a literal blank state character. -/
def isIncompleteItem (l : Str) : Bool :=
  is_todo_line l && todoMarker l = ' '

/-! ## Concrete inputs used by counterexamples and witnesses -/

/-- A note whose parsed header id (`0000000002`) differs from the stem of the
path it will be indexed under. -/
def exC1Content : Str := ("#import \"../include.typ\": *\n\n\n= T <0000000002>").toList

/-- The path stem `0000000001` for the C1 counterexample. -/
def exC1Path : Str := ("0000000001").toList

/-- A checklist text with a multibyte character inside a checklist line:
nested aggregation rewrites it through byte-based indexing, changing the set
of checklist lines between the first and second pass. -/
def exC4T : Str := ("- [ ] A\n  - [好\n    - [x] c").toList

/-- An ASCII three-level checklist (the spec's own scenario) for the C4
witness. -/
def exC4W : Str := ("- [ ] A\n  - [ ] B\n    - [x] C\n").toList

/-- A checklist line indented with three em spaces (U+2003, 3 UTF-8 bytes
each) referencing a note that is not done. -/
def exC3Line : Str := ("   - [x] @1234567890").toList

/-- What the code actually produces on `exC3Line`: the digit `3` of the id is
blanked, the box stays checked. -/
def exC3Out : Str := ("   - [x] @12 4567890").toList

/-- What the claim promises on `exC3Line`: the box is cleared, the rest
untouched. -/
def exC3Claim : Str := ("   - [ ] @1234567890").toList

/-- A note that parses and has a derivable tag (one incomplete item before
the import line) but whose text ends on the title line, so no tag line
exists. -/
def exC5Bad : Str :=
  ("- [ ] a\n#import \"../include.typ\": *\nx\ny\n= T <1234567890>").toList

/-- The header `parse_header` yields on `exC5Bad`. -/
def exC5BadHdr : NoteHeader :=
  { id := ("1234567890").toList
    title := ("T").toList
    archived := false
    legacy := false
    alt_id := none
    evo_id := none
    aliases := []
    abstract_text := none
    keywords := []
    tag_line_idx := 5
    title_line_idx := 4 }

/-- The spec's scenario note: header with no tag, two incomplete checklist
items ⇒ `#tag.todo` is appended to the (empty) tag line. -/
def exC5Good : Str :=
  ("#import \"../include.typ\": *\n#show: zettel\n\n= N <0000000001>\n\n\n- [ ] a\n- [ ] b\n").toList

/-- The header `parse_header` yields on `exC5Good`. -/
def exC5GoodHdr : NoteHeader :=
  { id := ("0000000001").toList
    title := ("N").toList
    archived := false
    legacy := false
    alt_id := none
    evo_id := none
    aliases := []
    abstract_text := none
    keywords := []
    tag_line_idx := 4
    title_line_idx := 3 }

/-- A line with `@` followed by eleven digits: malformed per the claim, yet
matched by `@(\d{10})` on its first ten digits. -/
def exC6Line : Str := ("@12345678901").toList

/-- A line with the `- [` prefix and a state character but `)` instead of the
closing `]`. -/
def exC7Line : Str := ("- [x)").toList

/-- A line with UTF-16-relevant characters for the C8 witness: one ASCII,
one 2-byte (é), one 3-byte (你), one 4-byte (𝄞 MUSICAL SYMBOL G CLEF). -/
def exC8Line : Str := ("aé你𝄞z").toList

/-- A parseable note whose header id equals the stem `0000000001`, for the C1
round-trip witness. -/
def exC1WContent : Str :=
  ("#import \"../include.typ\": *\n\n\n= W <0000000001> @0000000009").toList

/-- The header `parse_header` yields on `exC1WContent`. -/
def exC1WHdr : NoteHeader :=
  { id := ("0000000001").toList
    title := ("W").toList
    archived := false
    legacy := false
    alt_id := none
    evo_id := none
    aliases := []
    abstract_text := none
    keywords := []
    tag_line_idx := 4
    title_line_idx := 3 }

/-- The invariant: the backlink map never stores an empty location list. -/
def NoEmptyBacklinks (st : IndexState) : Prop :=
  ∀ id l, st.backlinks id = some l → l ≠ []

/-! # Theorems -/

/-- C2: for every `TodoStatus` and archived flag, `compute_status_tag` is
absent exactly when both counters are zero, else Done when archived, else
Done when nothing is incomplete, else Wip when at least one item is
complete, else Todo. -/
theorem C2_compute_status_tag_spec (t : TodoStatus) (archived : Bool) :
    compute_status_tag t archived = statusTagClaim t archived := by
  rcases t with ⟨c, i⟩
  unfold compute_status_tag statusTagClaim
  rcases c with _ | c <;> rcases i with _ | i <;> cases archived <;> simp

/-- C6 counterexample: on `@` followed by eleven digits, `find_all_refs`
produces a match (on the first ten digits), while the claim — one occurrence
per `@` followed by exactly ten digits, a wrong digit count being malformed
and unmatched — demands no match at all. -/
theorem C6_counterexample :
    find_all_refs exC6Line =
      [{ id := ("1234567890").toList, line := 0, startChar := 0, endChar := 11 }] ∧
    findAllRefsClaim exC6Line = [] := by decide

/-- C7 counterexample: the line `- [x)` has no closing `]` after the state
character, so under the claim's shape it is not a checklist item; the code
nevertheless counts it as completed (it never checks for `]`). -/
theorem C7_counterexample :
    count_todos exC7Line = { completed := 1, incomplete := 0 } ∧
    countTodosClaim exC7Line = { completed := 0, incomplete := 0 } := by decide

/-- C10 (code bug): on a line indented with U+00A0 (a 2-byte whitespace
character), `replace_todo_state` computes the state position from the BYTE
length of the indent but indexes the character vector with it, so it
overwrites the `]` (character 5) instead of the state character (character
4), contrary to its own comment `Position of the state character: indent + 3`
and to the claim. -/
theorem C10_replace_todo_state_bug :
    replace_todo_state (" - [ ] a").toList 'x' = some ((" - [ x a").toList) ∧
    (" - [ x a").toList ≠ (" - [x] a").toList := by decide

/-- C3 (code bug): on a checklist line indented with three em spaces (9
bytes of leading whitespace), with a referenced note that is not done (every
read fails here), the box should be cleared; instead `replace_todo_state`
blanks the digit `3` of the id (character 12 = byte-indent 9 + 3) and the box
stays checked, contrary to the claim and to the function's own doc comment. -/
theorem C3_update_ref_checkboxes_bug :
    update_ref_checkboxes (fun _ => none) exC3Line = exC3Out ∧
    exC3Out ≠ exC3Claim ∧ get_todo_state exC3Out = some 'x' := by decide

/-- C4 counterexample: `update_nested_checkboxes` is not idempotent.  On
`exC4T` the first pass rewrites the multibyte line `  - [好` to `  - [x`
(byte-based indexing lands on `好`), which only then becomes a valid
checklist descendant, so a second pass checks the root item too. -/
theorem C4_counterexample :
    update_nested_checkboxes (update_nested_checkboxes exC4T) ≠
      update_nested_checkboxes exC4T := by decide

/-- C5 counterexample: `exC5Bad` parses (header id `1234567890`), its status
tag derives to Todo, and no done/wip/todo token is present on a tag line, yet
`compute_tag_edit` returns no edit — the text ends on the title line, so the
tag-line lookup fails and the function bails out instead of producing the
append edit the claim demands. -/
theorem C5_counterexample :
    parse_header exC5Bad = some exC5BadHdr ∧
    compute_status_tag (count_todos exC5Bad) exC5BadHdr.archived = some StatusTag.Todo ∧
    (rustLines exC5Bad).length = 5 ∧
    compute_tag_edit exC5Bad = none := by decide

/-- C1 counterexample: indexing a previously unindexed parseable file whose
header id (`0000000002`) differs from its filename stem (`0000000001`) and
then removing it leaves a residual metadata entry keyed by the header id —
`remove_by_path` only removes the stem key. -/
theorem C1_counterexample :
    (remove_by_path (index_file emptyIndex exC1Path (some exC1Content)) exC1Path).notes
        (("0000000002").toList) ≠ none := by decide

/-! ## C6: find_all_refs -/

theorem digit_ne_at (c : Char) (h : isNd c = true) : c ≠ '@' := by
  intro he
  subst he
  exact absurd h (by decide)

theorem refsNoSkip_digits (ds : Str) :
    ∀ (rest : Str) (off : Nat), ds.all isNd = true →
      refsNoSkip (ds ++ rest) off = refsNoSkip rest (off + byteLen ds) := by
  induction ds with
  | nil => intro rest off _; simp [byteLen]
  | cons d ds ih =>
    intro rest off h
    rw [List.all_cons, Bool.and_eq_true] at h
    have hne := digit_ne_at d h.1
    show refsNoSkip (d :: (ds ++ rest)) off = refsNoSkip rest (off + byteLen (d :: ds))
    simp only [refsNoSkip]
    rw [show (decide (d = '@') && decide (((ds ++ rest).take 10).length = 10) &&
        ((ds ++ rest).take 10).all isNd) = false by simp [hne]]
    simp only [Bool.false_eq_true, if_false, List.nil_append]
    rw [ih rest (off + utf8Len d) h.2]
    congr 1
    simp only [byteLen, List.map_cons, List.sum_cons]
    omega

theorem refsInLineF_spec (fuel : Nat) :
    ∀ (s : Str) (off : Nat), s.length ≤ fuel →
      refsInLineF fuel s off = refsNoSkip s off := by
  induction fuel with
  | zero =>
    intro s off hle
    have : s = [] := List.eq_nil_of_length_eq_zero (Nat.le_zero.mp hle)
    subst this
    rfl
  | succ fuel ih =>
    intro s off hle
    cases s with
    | nil => rfl
    | cons c rest =>
      simp only [List.length_cons, Nat.succ_le_succ_iff] at hle
      by_cases hc : (decide (c = '@') && decide ((rest.take 10).length = 10) &&
          (rest.take 10).all isNd) = true
      · have hcc := hc
        rw [Bool.and_eq_true, Bool.and_eq_true, decide_eq_true_eq, decide_eq_true_eq] at hcc
        obtain ⟨⟨hat, hlen⟩, hdig⟩ := hcc
        subst hat
        show refsInLineF (fuel + 1) ('@' :: rest) off = refsNoSkip ('@' :: rest) off
        unfold refsInLineF refsNoSkip
        rw [if_pos hc, if_pos hc]
        have hdl : (rest.drop 10).length ≤ fuel := by
          rw [List.length_drop]
          omega
        rw [ih (rest.drop 10) (off + 1 + byteLen (rest.take 10)) hdl]
        have hsplit : refsNoSkip rest (off + utf8Len '@') =
            refsNoSkip (rest.drop 10) (off + 1 + byteLen (rest.take 10)) := by
          conv_lhs => rw [← List.take_append_drop 10 rest]
          rw [refsNoSkip_digits (rest.take 10) (rest.drop 10) (off + utf8Len '@') hdig]
          congr 1
        rw [← hsplit]
        rfl
      · show refsInLineF (fuel + 1) (c :: rest) off = refsNoSkip (c :: rest) off
        unfold refsInLineF refsNoSkip
        rw [if_neg hc, if_neg hc, List.nil_append]
        exact ih rest (off + utf8Len c) hle

theorem refsInLine_eq_noSkip (s : Str) (off : Nat) :
    refsInLine s off = refsNoSkip s off :=
  refsInLineF_spec s.length s off le_rfl

/-- C6 (amended): `find_all_refs` returns, in line-major left-to-right order,
exactly one occurrence — carrying the first ten digits as the id, the 0-based
line number and the byte offsets `start` / `start + 1 +` the UTF-8 byte
length of those ten digits — per `@` followed by AT LEAST ten decimal digits
(Unicode `Nd`, the crate's `\d`; an over-long digit run is matched on its
first ten digits rather than rejected; matches never overlap, an id
containing no `@`). -/
theorem C6_find_all_refs_spec (content : Str) :
    find_all_refs content = findAllRefsAmended content := by
  unfold find_all_refs findAllRefsAmended
  congr 1
  apply List.map_congr_left
  intro p _
  rw [refsInLine_eq_noSkip]

/-! ## C9: no empty backlink entries -/

theorem noEmpty_empty : NoEmptyBacklinks emptyIndex := by
  intro id l h
  simp [emptyIndex] at h

theorem noEmpty_rbf (st : IndexState) (p : Str) :
    NoEmptyBacklinks (remove_backlinks_from st p) := by
  intro id l h
  unfold remove_backlinks_from at h
  simp only at h
  cases hb : st.backlinks id with
  | none => rw [hb] at h; exact absurd h (by simp)
  | some l0 =>
    rw [hb] at h
    simp only at h
    by_cases he : l0.filter (fun loc => loc.file ≠ p) = []
    · rw [if_pos he] at h
      exact absurd h (by simp)
    · rw [if_neg he] at h
      cases h
      exact he

theorem noEmpty_push (st : IndexState) (p : Str) (lines : List Str)
    (r : RefOccurrence) (h : NoEmptyBacklinks st) :
    NoEmptyBacklinks (pushLoc p lines st r) := by
  intro id l hl
  unfold pushLoc mapUpdate at hl
  simp only at hl
  by_cases hk : id = r.id
  · rw [if_pos hk] at hl
    cases hl
    simp
  · rw [if_neg hk] at hl
    exact h id l hl

theorem noEmpty_foldPush (refs : List RefOccurrence) :
    ∀ (st : IndexState) (p : Str) (lines : List Str), NoEmptyBacklinks st →
      NoEmptyBacklinks (refs.foldl (pushLoc p lines) st) := by
  induction refs with
  | nil => intro st p lines h; exact h
  | cons r rs ih =>
    intro st p lines h
    exact ih (pushLoc p lines st r) p lines (noEmpty_push st p lines r h)

theorem noEmpty_index_file (st : IndexState) (p : Str) (c : Option Str)
    (h : NoEmptyBacklinks st) : NoEmptyBacklinks (index_file st p c) := by
  unfold index_file
  cases c with
  | none => exact h
  | some content =>
    simp only
    apply noEmpty_foldPush
    cases hp : parse_header content with
    | none => simpa [hp] using h
    | some hd =>
      simp only [hp]
      intro id l hl
      exact h id l hl

theorem noEmpty_rebuild (files : List (Str × Option Str)) :
    NoEmptyBacklinks (rebuild_full files) := by
  unfold rebuild_full
  have hgen : ∀ (fs : List (Str × Option Str)) (st : IndexState), NoEmptyBacklinks st →
      NoEmptyBacklinks (fs.foldl (fun st pc => index_file st pc.1 pc.2) st) := by
    intro fs
    induction fs with
    | nil => intro st h; exact h
    | cons f fs ih =>
      intro st h
      exact ih _ (noEmpty_index_file st f.1 f.2 h)
  exact hgen files emptyIndex noEmpty_empty

theorem noEmpty_applyOp (st : IndexState) (op : IndexOp) (h : NoEmptyBacklinks st) :
    NoEmptyBacklinks (applyOp st op) := by
  cases op with
  | rebuild files => exact noEmpty_rebuild files
  | update p c =>
    exact noEmpty_index_file _ p c (noEmpty_rbf st p)
  | remove p => exact noEmpty_rbf _ p

theorem noEmpty_runOps (ops : List IndexOp) :
    ∀ (st : IndexState), NoEmptyBacklinks st → NoEmptyBacklinks (runOps st ops) := by
  induction ops with
  | nil => intro st h; exact h
  | cons op ops ih =>
    intro st h
    exact ih _ (noEmpty_applyOp st op h)

/-- C9: starting from the empty index, after any sequence of rebuild/update/
remove operations the backlink map has no key with an empty location list,
and `get_backlinks` returns `[]` exactly for the ids absent from the map. -/
theorem C9_no_empty_backlinks (ops : List IndexOp) (id : Str) :
    (∀ l, (runOps emptyIndex ops).backlinks id = some l → l ≠ []) ∧
    (get_backlinks (runOps emptyIndex ops) id = [] ↔
      (runOps emptyIndex ops).backlinks id = none) := by
  have hinv := noEmpty_runOps ops emptyIndex noEmpty_empty
  refine ⟨fun l => hinv id l, ?_⟩
  unfold get_backlinks
  cases hb : (runOps emptyIndex ops).backlinks id with
  | none => simp
  | some l =>
    simp only [Option.getD_some]
    constructor
    · intro he
      exact absurd he (hinv id l hb)
    · intro he
      cases he

/-! ## C5: compute_tag_edit -/

/-- C5 (amended): for every text whose header parses, whose status tag is
derivable from its checklist items, and which HAS a line at the tag index,
`compute_tag_edit` returns no edit iff the status token detected on the tag
line (by literal containment, tested done/wip/todo) equals the derived tag;
otherwise it returns exactly one single-line replacement edit for the tag
line whose new text substitutes the detected token (all its occurrences)
when one is present, or appends a space and the new token when none is. -/
theorem C5_compute_tag_edit_spec (content : Str) (h : NoteHeader) (tag : StatusTag)
    (tagLine : Str)
    (hp : parse_header content = some h)
    (ht : compute_status_tag (count_todos content) h.archived = some tag)
    (hl : (rustLines content)[h.tag_line_idx]? = some tagLine) :
    compute_tag_edit content =
      if currentTagStr tagLine = some (tagLit tag) then none
      else
        some { startLine := h.tag_line_idx, startChar := 0, endLine := h.tag_line_idx,
               endChar := byteLen tagLine,
               newText :=
                 match currentTagStr tagLine with
                 | some old => replaceAll old (tagLit tag) tagLine
                 | none => tagLine ++ ' ' :: tagLit tag } := by
  unfold compute_tag_edit
  rw [hp]
  simp only [Option.bind_eq_bind, Option.some_bind, ht, hl]

/-- C5 witness: the spec's own scenario — a header with no tag and two
incomplete checklist items gets ` #tag.todo` appended to its (empty) tag
line. -/
theorem C5_tag_edit_witness :
    parse_header exC5Good = some exC5GoodHdr ∧
    compute_status_tag (count_todos exC5Good) exC5GoodHdr.archived = some StatusTag.Todo ∧
    (rustLines exC5Good)[exC5GoodHdr.tag_line_idx]? = some [] ∧
    compute_tag_edit exC5Good =
      (if currentTagStr [] = some (tagLit StatusTag.Todo) then none
       else
         some { startLine := exC5GoodHdr.tag_line_idx, startChar := 0,
                endLine := exC5GoodHdr.tag_line_idx,
                endChar := byteLen [],
                newText :=
                  match currentTagStr [] with
                  | some old => replaceAll old (tagLit StatusTag.Todo) []
                  | none => [] ++ ' ' :: tagLit StatusTag.Todo }) :=
  ⟨by decide, by decide, by decide,
    C5_compute_tag_edit_spec exC5Good exC5GoodHdr StatusTag.Todo []
      (by decide) (by decide) (by decide)⟩

/-! ## C1: index/remove round trip -/

theorem indexState_eq (a b : IndexState) (hn : a.notes = b.notes)
    (hb : a.backlinks = b.backlinks) : a = b := by
  cases a
  cases b
  cases hn
  cases hb
  rfl

theorem foldPush_notes (refs : List RefOccurrence) :
    ∀ (st : IndexState) (p : Str) (lines : List Str),
      (refs.foldl (pushLoc p lines) st).notes = st.notes := by
  induction refs with
  | nil => intro st p lines; rfl
  | cons r rs ih =>
    intro st p lines
    exact ih (pushLoc p lines st r) p lines

theorem foldPush_backlinks (refs : List RefOccurrence) :
    ∀ (st : IndexState) (p : Str) (lines : List Str) (k : Str),
      ∃ ns : List BacklinkLocation, (∀ x ∈ ns, x.file = p) ∧
        ((refs.foldl (pushLoc p lines) st).backlinks k =
          if st.backlinks k = none ∧ ns = [] then none
          else some ((st.backlinks k).getD [] ++ ns)) := by
  induction refs with
  | nil =>
    intro st p lines k
    refine ⟨[], by simp, ?_⟩
    have hn0 : (List.foldl (pushLoc p lines) st ([] : List RefOccurrence)) = st := rfl
    rw [hn0]
    cases hb : st.backlinks k with
    | none => simp
    | some l => simp
  | cons r rs ih =>
    intro st p lines k
    obtain ⟨ns, hns, heq⟩ := ih (pushLoc p lines st r) p lines k
    by_cases hk : k = r.id
    · subst hk
      have hpush : (pushLoc p lines st r).backlinks r.id =
          some ((st.backlinks r.id).getD [] ++ [locOfRef p lines r]) := by
        unfold pushLoc mapUpdate
        simp
      rw [hpush] at heq
      refine ⟨locOfRef p lines r :: ns, ?_, ?_⟩
      · intro x hx
        rcases List.mem_cons.mp hx with hx | hx
        · subst hx; rfl
        · exact hns x hx
      · show (rs.foldl (pushLoc p lines) (pushLoc p lines st r)).backlinks r.id =
          if st.backlinks r.id = none ∧ locOfRef p lines r :: ns = [] then none
          else some ((st.backlinks r.id).getD [] ++ (locOfRef p lines r :: ns))
        rw [heq]
        have hcond : ¬(some ((st.backlinks r.id).getD [] ++ [locOfRef p lines r]) = none ∧
            ns = []) := by
          intro hcc
          exact absurd hcc.1 (by simp)
        rw [if_neg hcond]
        have hcond2 : ¬(st.backlinks r.id = none ∧ locOfRef p lines r :: ns = []) := by
          intro hcc
          exact absurd hcc.2 (by simp)
        rw [if_neg hcond2]
        simp
    · have hpush : (pushLoc p lines st r).backlinks k = st.backlinks k := by
        unfold pushLoc mapUpdate
        simp [hk]
      rw [hpush] at heq
      exact ⟨ns, hns, heq⟩

theorem index_file_backlinks_base (st : IndexState) (p : Str) (content : Str) :
    (match parse_header content with
      | some h => { st with notes := mapUpdate st.notes h.id (some (infoOfHeader h p)) }
      | none => st).backlinks = st.backlinks := by
  cases parse_header content <;> rfl

/-- C1 (amended): for a file not previously indexed (no metadata entry under
the file stem, no backlink location owned by the file, no empty backlink
lists) WHOSE PARSED HEADER ID EQUALS ITS FILENAME STEM (when it parses at
all), indexing the file and then removing it restores both maps exactly. -/
theorem C1_index_remove_roundtrip (st : IndexState) (p c : Str)
    (hid : ∀ hh, parse_header c = some hh → hh.id = p)
    (hnotes : st.notes p = none)
    (hbl : ∀ k l, st.backlinks k = some l → l ≠ [] ∧ ∀ loc ∈ l, loc.file ≠ p) :
    remove_by_path (index_file st p (some c)) p = st := by
  apply indexState_eq
  · funext k
    show (mapUpdate (index_file st p (some c)).notes p none) k = st.notes k
    unfold mapUpdate
    by_cases hk : k = p
    · rw [if_pos hk, hk, hnotes]
    · rw [if_neg hk]
      unfold index_file
      simp only
      rw [foldPush_notes]
      cases hp : parse_header c with
      | none => rfl
      | some hh =>
        simp only
        have hhid := hid hh hp
        unfold mapUpdate
        rw [if_neg (by rw [hhid]; exact hk)]
  · funext k
    obtain ⟨ns, hns, heq⟩ :=
      foldPush_backlinks (find_all_refs c)
        (match parse_header c with
          | some h => { st with notes := mapUpdate st.notes h.id (some (infoOfHeader h p)) }
          | none => st) p (rustLines c) k
    rw [index_file_backlinks_base st p c] at heq
    show (match (index_file st p (some c)).backlinks k with
      | none => none
      | some l =>
        let l1 := l.filter fun loc => loc.file ≠ p
        if l1 = [] then none else some l1) = st.backlinks k
    have hXk : (index_file st p (some c)).backlinks k =
        if st.backlinks k = none ∧ ns = [] then none
        else some ((st.backlinks k).getD [] ++ ns) := heq
    rw [hXk]
    have hfilter_ns : ns.filter (fun loc => loc.file ≠ p) = [] := by
      rw [List.filter_eq_nil_iff]
      intro a ha
      simp [hns a ha]
    cases hb : st.backlinks k with
    | none =>
      by_cases hn : ns = []
      · rw [if_pos ⟨rfl, hn⟩]
      · rw [if_neg (fun hcc => hn hcc.2)]
        simp only [Option.getD_none, List.nil_append]
        rw [hfilter_ns]
        simp
    | some l =>
      obtain ⟨hlne, hlfiles⟩ := hbl k l hb
      rw [if_neg (fun hcc => absurd hcc.1 (by simp))]
      simp only [Option.getD_some, List.filter_append, hfilter_ns, List.append_nil]
      have hfilter_l : l.filter (fun loc => loc.file ≠ p) = l := by
        rw [List.filter_eq_self]
        intro a ha
        simp [hlfiles a ha]
      rw [hfilter_l, if_neg hlne]

/-- C1 witness: the round trip restores the empty index exactly for a
parseable note (`exC1WContent`, one outgoing reference) whose header id
equals its stem. -/
theorem C1_roundtrip_witness :
    (∀ hh, parse_header exC1WContent = some hh → hh.id = exC1Path) ∧
    emptyIndex.notes exC1Path = none ∧
    (∀ k l, emptyIndex.backlinks k = some l → l ≠ [] ∧ ∀ loc ∈ l, loc.file ≠ exC1Path) ∧
    remove_by_path (index_file emptyIndex exC1Path (some exC1WContent)) exC1Path =
      emptyIndex := by
  have h1 : ∀ hh, parse_header exC1WContent = some hh → hh.id = exC1Path := by
    intro hh hhp
    have he : parse_header exC1WContent = some exC1WHdr := by decide
    rw [he] at hhp
    cases hhp
    decide
  have h3 : ∀ k l, emptyIndex.backlinks k = some l →
      l ≠ [] ∧ ∀ loc ∈ l, loc.file ≠ exC1Path := by
    intro k l hkl
    exact absurd hkl (by simp [emptyIndex])
  exact ⟨h1, rfl, h3,
    C1_index_remove_roundtrip emptyIndex exC1Path exC1WContent h1 rfl h3⟩

/-! ## C8: byte-to-UTF-16 conversion -/

theorem utf16Len_le_utf8Len (c : Char) : utf16Len c ≤ utf8Len c := by
  unfold utf8Len utf16Len
  split_ifs <;> omega

theorem takeBytes_prefix_mono (s : Str) :
    ∀ o1 o2, o1 ≤ o2 → takeBytes s o1 <+: takeBytes s o2 := by
  induction s with
  | nil => intro o1 o2 _; simp [takeBytes]
  | cons c r ih =>
    intro o1 o2 hle
    unfold takeBytes
    by_cases h1 : utf8Len c ≤ o1
    · have h2 : utf8Len c ≤ o2 := le_trans h1 hle
      simp only [h1, h2, if_true]
      obtain ⟨t, ht⟩ := ih (o1 - utf8Len c) (o2 - utf8Len c) (Nat.sub_le_sub_right hle _)
      exact ⟨t, by rw [← ht]; simp⟩
    · simp [h1]

theorem sum_le_of_prefix {l1 l2 : List Nat} (h : l1 <+: l2) : l1.sum ≤ l2.sum := by
  obtain ⟨t, rfl⟩ := h
  simp

theorem sum_map_sub_of_le {α : Type} (f g : α → Nat) (l : List α)
    (h : ∀ x ∈ l, g x ≤ f x) :
    (l.map f).sum - (l.map g).sum = (l.map fun x => f x - g x).sum := by
  induction l with
  | nil => simp
  | cons a t ih =>
    have ha := h a (by simp)
    have ht : ∀ x ∈ t, g x ≤ f x := fun x hx => h x (by simp [hx])
    have hsum : (t.map g).sum ≤ (t.map f).sum := by
      apply List.sum_le_sum
      intro x hx
      exact ht x hx
    have := ih ht
    simp only [List.map_cons, List.sum_cons]
    omega

/-- C8: over char-boundary byte offsets (characterized by
`byteLen (takeBytes s o) = o`), `byte_to_utf16` is monotone; it equals the
byte offset when every character before the offset is ASCII; and in general
the byte offset exceeds the UTF-16 offset by `utf8Len c - utf16Len c` summed
over the characters before the offset — exactly 1 for each 2-byte character
and exactly 2 for each 4-byte (surrogate-pair) character. -/
theorem C8_byte_to_utf16_props (s : Str) (o1 o2 : Nat)
    (hb1 : byteLen (takeBytes s o1) = o1) (hb2 : byteLen (takeBytes s o2) = o2) :
    (o1 ≤ o2 → byte_to_utf16 s o1 ≤ byte_to_utf16 s o2) ∧
    ((takeBytes s o1).all (fun c => c.toNat < 0x80) = true → byte_to_utf16 s o1 = o1) ∧
    (o1 - byte_to_utf16 s o1 =
      ((takeBytes s o1).map fun c => utf8Len c - utf16Len c).sum) ∧
    (∀ c ∈ takeBytes s o1,
      (utf8Len c = 2 → utf8Len c - utf16Len c = 1) ∧
      (utf8Len c = 4 → utf8Len c - utf16Len c = 2)) := by
  refine ⟨?_, ?_, ?_, ?_⟩
  · intro hle
    unfold byte_to_utf16
    exact sum_le_of_prefix ((takeBytes_prefix_mono s o1 o2 hle).map utf16Len)
  · intro hall
    suffices hs : byte_to_utf16 s o1 = byteLen (takeBytes s o1) by rw [hs, hb1]
    unfold byte_to_utf16 byteLen
    congr 1
    apply List.map_congr_left
    intro c hc
    have := List.all_eq_true.mp hall c hc
    simp only [decide_eq_true_eq] at this
    unfold utf8Len utf16Len
    split_ifs <;> omega
  · have h3 : o1 - byte_to_utf16 s o1 =
        byteLen (takeBytes s o1) - byte_to_utf16 s o1 := by rw [hb1]
    rw [h3]
    unfold byte_to_utf16 byteLen
    exact sum_map_sub_of_le utf8Len utf16Len _ (fun x _ => utf16Len_le_utf8Len x)
  · intro c _
    refine ⟨fun h => ?_, fun h => ?_⟩ <;>
    · unfold utf8Len at h
      unfold utf8Len utf16Len
      split_ifs at h ⊢ <;> omega

/-! ## C7: count_todos -/

theorem countTodosGo_spec (ls : List Str) :
    ∀ (st : TodoStatus) (flag : Bool),
      countTodosGo st flag ls =
        { completed := st.completed + (unfencedLines flag ls).countP isCompletedItem,
          incomplete := st.incomplete + (unfencedLines flag ls).countP isIncompleteItem } := by
  induction ls with
  | nil => intro st flag; simp [countTodosGo, unfencedLines]
  | cons l rest ih =>
    intro st flag
    unfold countTodosGo unfencedLines
    by_cases hf : ("```").toList.isPrefixOf (trimStart l) = true
    · simp only [hf, if_true]
      exact ih st (!flag)
    · simp only [hf, if_false, Bool.false_eq_true]
      by_cases hc : flag = true
      · simp only [hc, if_true]
        exact ih st true
      · simp only [hc, if_false, Bool.false_eq_true]
        by_cases hshape : (("- [").toList.isPrefixOf (trimStart l) &&
            decide (byteLen (trimStart l) ≥ 5)) = true
        · simp only [hshape, if_true, List.countP_cons]
          have htd : is_todo_line l = true := by
            unfold is_todo_line
            exact hshape
          by_cases hx : ((trimStart l)[3]?.getD ' ' = 'x' ∨ (trimStart l)[3]?.getD ' ' = 'X')
          · have hcomp : isCompletedItem l = true := by
              unfold isCompletedItem todoMarker
              rcases hx with hx | hx <;> simp [htd, hx]
            have hinc : isIncompleteItem l = false := by
              unfold isIncompleteItem todoMarker
              rcases hx with hx | hx <;> simp [hx]
            have hxb : ((trimStart l)[3]?.getD ' ' = 'x' ||
                (trimStart l)[3]?.getD ' ' = 'X') = true := by
              rcases hx with hx | hx <;> simp [hx]
            simp only [hxb, if_true, ih, hcomp, hinc]
            simp only [TodoStatus.mk.injEq, Bool.false_eq_true, if_false, if_true]
            omega
          · push_neg at hx
            have hxb : ((trimStart l)[3]?.getD ' ' = 'x' ||
                (trimStart l)[3]?.getD ' ' = 'X') = false := by
              simp [hx.1, hx.2]
            have hcomp : isCompletedItem l = false := by
              unfold isCompletedItem todoMarker
              simp [hx.1, hx.2]
            simp only [hxb, Bool.false_eq_true, if_false]
            by_cases hsp : (trimStart l)[3]?.getD ' ' = ' '
            · have hinc : isIncompleteItem l = true := by
                unfold isIncompleteItem todoMarker
                simp [htd, hsp]
              simp only [hsp, if_true, ih, hcomp, hinc]
              simp only [TodoStatus.mk.injEq, Bool.false_eq_true, if_false, if_true]
              omega
            · have hinc : isIncompleteItem l = false := by
                unfold isIncompleteItem todoMarker
                simp [hsp]
              simp only [hsp, if_false, ih, hcomp, hinc]
              simp
        · have htd0 : is_todo_line l = false := by
            unfold is_todo_line
            exact Bool.eq_false_iff.mpr hshape
          have hcomp : isCompletedItem l = false := by
            unfold isCompletedItem
            rw [htd0]
            rfl
          have hinc : isIncompleteItem l = false := by
            unfold isIncompleteItem
            rw [htd0]
            rfl
          rw [if_neg hshape]
          simp only [ih, List.countP_cons, hcomp, hinc]
          simp

/-- C7 (amended): `count_todos` counts, over the lines outside fenced code
blocks, as completed the lines of checklist shape (trimmed form starting with
`- [` and at least 5 bytes long — no closing `]` required) whose state
character is `x`/`X`, and as incomplete those whose state character is a
blank; every other line changes neither counter. -/
theorem C7_count_todos_spec (content : Str) :
    count_todos content =
      { completed := (unfencedLines false (rustLines content)).countP isCompletedItem,
        incomplete := (unfencedLines false (rustLines content)).countP isIncompleteItem } := by
  unfold count_todos
  rw [countTodosGo_spec]
  simp

/-- C8 witness: the theorem applied to `aé你𝄞z` at the byte boundaries 3
(after `aé`) and 10 (after `aé你𝄞`). -/
theorem C8_byte_to_utf16_witness :
    (byteLen (takeBytes exC8Line 3) = 3 ∧ byteLen (takeBytes exC8Line 10) = 10) ∧
    ((3 ≤ 10 → byte_to_utf16 exC8Line 3 ≤ byte_to_utf16 exC8Line 10) ∧
     ((takeBytes exC8Line 3).all (fun c => c.toNat < 0x80) = true →
        byte_to_utf16 exC8Line 3 = 3) ∧
     (3 - byte_to_utf16 exC8Line 3 =
        ((takeBytes exC8Line 3).map fun c => utf8Len c - utf16Len c).sum) ∧
     (∀ c ∈ takeBytes exC8Line 3,
        (utf8Len c = 2 → utf8Len c - utf16Len c = 1) ∧
        (utf8Len c = 4 → utf8Len c - utf16Len c = 2))) :=
  ⟨⟨by decide, by decide⟩, C8_byte_to_utf16_props exC8Line 3 10 (by decide) (by decide)⟩

/-! ## C4: idempotence of nested-checkbox aggregation

The amended statement restricts to texts of ASCII characters without
carriage returns: there byte positions and character positions coincide, so
`replace_todo_state` really writes the state character, and
`lines()`/`join("\n")` round-trip exactly. -/

theorem byteLen_ascii (l : Str) (h : ∀ c ∈ l, c.toNat < 128) : byteLen l = l.length := by
  induction l with
  | nil => rfl
  | cons c t ih =>
    have hc := h c (by simp)
    have ht : ∀ x ∈ t, x.toNat < 128 := fun x hx => h x (by simp [hx])
    show utf8Len c + byteLen t = t.length + 1
    rw [ih ht]
    unfold utf8Len
    rw [if_pos hc]
    omega

theorem byteLen_append (a b : Str) : byteLen (a ++ b) = byteLen a + byteLen b := by
  unfold byteLen
  rw [List.map_append, List.sum_append]

theorem byteLen_ge_length (l : Str) : l.length ≤ byteLen l := by
  induction l with
  | nil => simp [byteLen]
  | cons c t ih =>
    show t.length + 1 ≤ utf8Len c + byteLen t
    have : 1 ≤ utf8Len c := by
      unfold utf8Len
      split_ifs <;> omega
    omega

theorem listSetAppend {α : Type} (l₁ l₂ : List α) (i : Nat) (a : α) :
    (l₁ ++ l₂).set (l₁.length + i) a = l₁ ++ l₂.set i a := by
  induction l₁ with
  | nil => simp
  | cons c t ih =>
    simp only [List.cons_append, List.length_cons]
    rw [show t.length + 1 + i = (t.length + i) + 1 from by omega]
    show c :: (t ++ l₂).set (t.length + i) a = c :: (t ++ l₂.set i a)
    rw [ih]

theorem takeWhile_sat_append (p : Char → Bool) (l₁ : Str) :
    ∀ x, (∀ c ∈ l₁, p c = true) →
      (l₁ ++ x).takeWhile p = l₁ ++ x.takeWhile p ∧
      (l₁ ++ x).dropWhile p = x.dropWhile p := by
  induction l₁ with
  | nil => intro x _; simp
  | cons c t ih =>
    intro x h
    have hc := h c (by simp)
    obtain ⟨h1, h2⟩ := ih x (fun y hy => h y (by simp [hy]))
    constructor
    · simp only [List.cons_append, List.takeWhile_cons, hc, if_true, h1]
    · simp only [List.cons_append, List.dropWhile_cons, hc, if_true, h2]

theorem head_stop (p : Char → Bool) (c : Char) (x : Str) (hc : p c = false) :
    (c :: x).takeWhile p = [] ∧ (c :: x).dropWhile p = c :: x := by
  simp [List.takeWhile_cons, List.dropWhile_cons, hc]

theorem todo_shape (l : Str) (ht : is_todo_line l = true) :
    ∃ rest, l = l.takeWhile isRustWhitespace ++ '-' :: ' ' :: '[' :: rest ∧
      byteLen ('-' :: ' ' :: '[' :: rest) ≥ 5 := by
  unfold is_todo_line trimStart at ht
  rw [Bool.and_eq_true, decide_eq_true_eq] at ht
  obtain ⟨hpre, hlen⟩ := ht
  obtain ⟨rest, hrest⟩ := List.isPrefixOf_iff_prefix.mp hpre
  have hlit : ("- [").toList = ['-', ' ', '['] := rfl
  rw [hlit] at hrest
  refine ⟨rest, ?_, ?_⟩
  · conv_lhs => rw [← List.takeWhile_append_dropWhile (p := isRustWhitespace) (l := l)]
    rw [← hrest]
    rfl
  · rw [← hrest] at hlen
    exact hlen

theorem trimStart_eq_drop_shape (l : Str) (rest : Str)
    (hdecomp : l = l.takeWhile isRustWhitespace ++ '-' :: ' ' :: '[' :: rest) :
    trimStart l = '-' :: ' ' :: '[' :: rest := by
  unfold trimStart
  conv_lhs => rw [hdecomp]
  rw [(takeWhile_sat_append isRustWhitespace (l.takeWhile isRustWhitespace)
      ('-' :: ' ' :: '[' :: rest) (fun c hc => List.mem_takeWhile_imp hc)).2]
  exact (head_stop isRustWhitespace '-' (' ' :: '[' :: rest) (by decide)).2

theorem indent_ascii (l : Str) (hA : ∀ c ∈ l, c.toNat < 128) :
    byteLen l - byteLen (trimStart l) = (l.takeWhile isRustWhitespace).length := by
  have hsplit := List.takeWhile_append_dropWhile (p := isRustWhitespace) (l := l)
  have htw : ∀ c ∈ l.takeWhile isRustWhitespace, c.toNat < 128 := by
    intro c hc
    exact hA c (by rw [← hsplit]; exact List.mem_append_left _ hc)
  have hdl : byteLen l = byteLen (l.takeWhile isRustWhitespace) + byteLen (trimStart l) := by
    conv_lhs => rw [← hsplit]
    exact byteLen_append _ _
  rw [hdl, byteLen_ascii _ htw]
  omega

theorem replace_ascii (l : Str) (ch : Char)
    (hA : ∀ c ∈ l, c.toNat < 128) (ht : is_todo_line l = true) :
    replace_todo_state l ch =
      some (l.set ((l.takeWhile isRustWhitespace).length + 3) ch) := by
  obtain ⟨rest, hdecomp, hlen5⟩ := todo_shape l ht
  have htrim := trimStart_eq_drop_shape l rest hdecomp
  have hind := indent_ascii l hA
  have hcond : (("- [").toList.isPrefixOf (trimStart l) &&
      decide (byteLen (trimStart l) ≥ 5)) = true := by
    unfold is_todo_line at ht
    exact ht
  have hlenl : l.length = (l.takeWhile isRustWhitespace).length + (3 + rest.length) := by
    conv_lhs => rw [hdecomp]
    simp only [List.length_append, List.length_cons]
    omega
  have hrest_ascii : ∀ c ∈ rest, c.toNat < 128 := by
    intro c hc
    exact hA c (by rw [hdecomp]; simp [hc])
  have hrest2 : rest.length ≥ 2 := by
    have hb : byteLen ('-' :: ' ' :: '[' :: rest) = 3 + rest.length := by
      show utf8Len '-' + (utf8Len ' ' + (utf8Len '[' + byteLen rest)) = 3 + rest.length
      rw [byteLen_ascii rest hrest_ascii]
      have e1 : utf8Len '-' = 1 := by decide
      have e2 : utf8Len ' ' = 1 := by decide
      have e3 : utf8Len '[' = 1 := by decide
      rw [e1, e2, e3]
      omega
    omega
  unfold replace_todo_state
  simp only [hind, hcond, if_true]
  rw [if_pos (show (l.takeWhile isRustWhitespace).length + 3 < l.length from by omega)]

theorem set_state_props (l : Str) (ch : Char)
    (hA : ∀ c ∈ l, c.toNat < 128) (ht : is_todo_line l = true)
    (hch : ch.toNat < 128) :
    (l.set ((l.takeWhile isRustWhitespace).length + 3) ch).length = l.length ∧
    (l.set ((l.takeWhile isRustWhitespace).length + 3) ch).takeWhile isRustWhitespace =
      l.takeWhile isRustWhitespace ∧
    is_todo_line (l.set ((l.takeWhile isRustWhitespace).length + 3) ch) = true ∧
    get_todo_state (l.set ((l.takeWhile isRustWhitespace).length + 3) ch) = some ch ∧
    (∀ c ∈ l.set ((l.takeWhile isRustWhitespace).length + 3) ch, c ∈ l ∨ c = ch) ∧
    byteLen (l.set ((l.takeWhile isRustWhitespace).length + 3) ch) -
        byteLen (trimStart (l.set ((l.takeWhile isRustWhitespace).length + 3) ch)) =
      byteLen l - byteLen (trimStart l) := by
  obtain ⟨rest, hdecomp, hlen5⟩ := todo_shape l ht
  have htw_sat : ∀ c ∈ l.takeWhile isRustWhitespace, isRustWhitespace c = true :=
    fun c hc => List.mem_takeWhile_imp hc
  have hrest_ascii : ∀ c ∈ rest, c.toNat < 128 := fun c hc =>
    hA c (by rw [hdecomp]; simp [hc])
  have hrest2 : rest.length ≥ 2 := by
    have hb : byteLen ('-' :: ' ' :: '[' :: rest) = 3 + rest.length := by
      show utf8Len '-' + (utf8Len ' ' + (utf8Len '[' + byteLen rest)) = 3 + rest.length
      rw [byteLen_ascii rest hrest_ascii]
      have e1 : utf8Len '-' = 1 := by decide
      have e2 : utf8Len ' ' = 1 := by decide
      have e3 : utf8Len '[' = 1 := by decide
      rw [e1, e2, e3]
      omega
    omega
  obtain ⟨r0, rest', hr⟩ : ∃ r0 rest', rest = r0 :: rest' := by
    cases rest with
    | nil => simp at hrest2
    | cons a b => exact ⟨a, b, rfl⟩
  subst hr
  have hset : l.set ((l.takeWhile isRustWhitespace).length + 3) ch =
      l.takeWhile isRustWhitespace ++ '-' :: ' ' :: '[' :: ch :: rest' := by
    have h0 := listSetAppend (l.takeWhile isRustWhitespace)
      ('-' :: ' ' :: '[' :: r0 :: rest') 3 ch
    rw [← hdecomp] at h0
    exact h0
  have htake : (l.set ((l.takeWhile isRustWhitespace).length + 3) ch).takeWhile
      isRustWhitespace = l.takeWhile isRustWhitespace := by
    rw [hset]
    rw [(takeWhile_sat_append isRustWhitespace _ ('-' :: ' ' :: '[' :: ch :: rest') htw_sat).1]
    rw [(head_stop isRustWhitespace '-' (' ' :: '[' :: ch :: rest') (by decide)).1]
    simp
  have hdrop : trimStart (l.set ((l.takeWhile isRustWhitespace).length + 3) ch) =
      '-' :: ' ' :: '[' :: ch :: rest' := by
    unfold trimStart
    rw [hset]
    rw [(takeWhile_sat_append isRustWhitespace _ ('-' :: ' ' :: '[' :: ch :: rest') htw_sat).2]
    exact (head_stop isRustWhitespace '-' (' ' :: '[' :: ch :: rest') (by decide)).2
  have hblen : byteLen ('-' :: ' ' :: '[' :: ch :: rest') ≥ 5 := by
    have : byteLen ('-' :: ' ' :: '[' :: ch :: rest') =
        utf8Len '-' + (utf8Len ' ' + (utf8Len '[' + (utf8Len ch + byteLen rest'))) := rfl
    have e1 : utf8Len '-' = 1 := by decide
    have e2 : utf8Len ' ' = 1 := by decide
    have e3 : utf8Len '[' = 1 := by decide
    have e4 : utf8Len ch = 1 := by unfold utf8Len; rw [if_pos hch]
    have e5 : rest'.length ≤ byteLen rest' := byteLen_ge_length rest'
    rw [e1, e2, e3, e4] at this
    simp only [List.length_cons] at hrest2
    omega
  have hpre2 : ("- [").toList.isPrefixOf ('-' :: ' ' :: '[' :: ch :: rest') = true := by
    rw [List.isPrefixOf_iff_prefix]
    exact ⟨ch :: rest', rfl⟩
  refine ⟨?_, htake, ?_, ?_, ?_, ?_⟩
  · simp
  · unfold is_todo_line trimStart
    rw [show (l.set ((l.takeWhile isRustWhitespace).length + 3) ch).dropWhile
        isRustWhitespace = '-' :: ' ' :: '[' :: ch :: rest' from hdrop]
    rw [Bool.and_eq_true, decide_eq_true_eq]
    exact ⟨hpre2, hblen⟩
  · unfold get_todo_state trimStart
    rw [show (l.set ((l.takeWhile isRustWhitespace).length + 3) ch).dropWhile
        isRustWhitespace = '-' :: ' ' :: '[' :: ch :: rest' from hdrop]
    rw [if_pos]
    · simp
    · rw [Bool.and_eq_true, decide_eq_true_eq]
      exact ⟨hpre2, hblen⟩
  · intro c hc
    rw [hset] at hc
    rcases List.mem_append.mp hc with hc | hc
    · exact Or.inl (by rw [hdecomp]; exact List.mem_append_left _ hc)
    · rcases hc with _ | ⟨_, hc⟩
      · exact Or.inl (by rw [hdecomp]; simp)
      · rcases hc with _ | ⟨_, hc⟩
        · exact Or.inl (by rw [hdecomp]; simp)
        · rcases hc with _ | ⟨_, hc⟩
          · exact Or.inl (by rw [hdecomp]; simp)
          · rcases hc with _ | ⟨_, hc⟩
            · exact Or.inr rfl
            · refine Or.inl ?_
              rw [hdecomp]
              exact List.mem_append_right _ (List.mem_cons_of_mem _
                (List.mem_cons_of_mem _ (List.mem_cons_of_mem _
                  (List.mem_cons_of_mem _ hc))))
  · have htr := trimStart_eq_drop_shape l (r0 :: rest') hdecomp
    rw [hdrop, htr]
    have h1 : byteLen (l.set ((l.takeWhile isRustWhitespace).length + 3) ch) =
        byteLen (l.takeWhile isRustWhitespace) + byteLen ('-' :: ' ' :: '[' :: ch :: rest') := by
      rw [hset]
      exact byteLen_append _ _
    have h2 : byteLen l =
        byteLen (l.takeWhile isRustWhitespace) + byteLen ('-' :: ' ' :: '[' :: r0 :: rest') := by
      conv_lhs => rw [hdecomp]
      exact byteLen_append _ _
    rw [h1, h2]
    omega

theorem collectItemsFrom_ge (L : List Str) :
    ∀ (i : Nat) (pr : Nat × Nat), pr ∈ collectItemsFrom i L → i ≤ pr.1 := by
  induction L with
  | nil => intro i pr h; simp [collectItemsFrom] at h
  | cons l L ih =>
    intro i pr h
    unfold collectItemsFrom at h
    by_cases htd : is_todo_line l = true
    · rw [if_pos htd] at h
      rcases List.mem_cons.mp h with h | h
      · subst h; simp
      · have := ih (i + 1) pr h
        omega
    · rw [if_neg htd] at h
      have := ih (i + 1) pr h
      omega

theorem collectItemsFrom_spec (L : List Str) :
    ∀ (i : Nat) (pr : Nat × Nat), pr ∈ collectItemsFrom i L →
      i ≤ pr.1 ∧ ∃ l, L[pr.1 - i]? = some l ∧ is_todo_line l = true ∧
        pr.2 = byteLen l - byteLen (trimStart l) := by
  induction L with
  | nil => intro i pr h; simp [collectItemsFrom] at h
  | cons l L ih =>
    intro i pr h
    unfold collectItemsFrom at h
    by_cases htd : is_todo_line l = true
    · rw [if_pos htd] at h
      rcases List.mem_cons.mp h with h | h
      · subst h
        refine ⟨le_refl _, l, ?_, htd, rfl⟩
        simp
      · obtain ⟨hge, l', hl', htd', hind'⟩ := ih (i + 1) pr h
        refine ⟨by omega, l', ?_, htd', hind'⟩
        have he : pr.1 - i = (pr.1 - (i + 1)) + 1 := by omega
        rw [he]
        simpa using hl'
    · rw [if_neg htd] at h
      obtain ⟨hge, l', hl', htd', hind'⟩ := ih (i + 1) pr h
      refine ⟨by omega, l', ?_, htd', hind'⟩
      have hge0 : i + 1 ≤ pr.1 := hge
      have he : pr.1 - i = (pr.1 - (i + 1)) + 1 := by omega
      rw [he]
      simpa using hl'

theorem collectItems_pairwise (L : List Str) :
    ∀ i, List.Pairwise (fun a b => a.1 < b.1) (collectItemsFrom i L) := by
  induction L with
  | nil => intro i; simp [collectItemsFrom]
  | cons l L ih =>
    intro i
    unfold collectItemsFrom
    by_cases htd : is_todo_line l = true
    · rw [if_pos htd]
      refine List.Pairwise.cons ?_ (ih (i + 1))
      intro b hb
      have := collectItemsFrom_ge L (i + 1) b hb
      simp only
      omega
    · rw [if_neg htd]
      exact ih (i + 1)

theorem collectItems_sorted (L : List Str) : SortedItems (collectItems L) := by
  intro k1 k2 p1 p2 hk h1 h2
  have hp := collectItems_pairwise L 0
  rw [List.pairwise_iff_getElem] at hp
  have hp2 : ∀ (i j : Nat) (pi pj : Nat × Nat), i < j →
      (collectItemsFrom 0 L)[i]? = some pi → (collectItemsFrom 0 L)[j]? = some pj →
      pi.1 < pj.1 := by
    intro i j pi pj hij hi hj
    obtain ⟨hli, hei⟩ := List.getElem?_eq_some.mp hi
    obtain ⟨hlj, hej⟩ := List.getElem?_eq_some.mp hj
    subst hei
    subst hej
    exact hp i j hli hlj hij
  exact hp2 k1 k2 p1 p2 hk h1 h2

theorem collectItems_lookup (L : List Str) (k li ind : Nat)
    (h : (collectItems L)[k]? = some (li, ind)) :
    ∃ l, L[li]? = some l ∧ is_todo_line l = true ∧
      ind = byteLen l - byteLen (trimStart l) := by
  have hmem : (li, ind) ∈ collectItems L := by
    obtain ⟨hl, he⟩ := List.getElem?_eq_some.mp h
    rw [← he]
    exact List.getElem_mem hl
  obtain ⟨_, l, hl, htd, hind⟩ := collectItemsFrom_spec L 0 (li, ind) hmem
  simp only [Nat.sub_zero] at hl
  exact ⟨l, hl, htd, hind⟩

theorem collectItemsFrom_set (L : List Str) :
    ∀ (i j : Nat) (nl : Str),
      (∀ lj, L[j]? = some lj → is_todo_line nl = is_todo_line lj ∧
        byteLen nl - byteLen (trimStart nl) = byteLen lj - byteLen (trimStart lj)) →
      collectItemsFrom i (L.set j nl) = collectItemsFrom i L := by
  induction L with
  | nil => intro i j nl _; simp
  | cons l L ih =>
    intro i j nl h
    cases j with
    | zero =>
      have hj := h l (by simp)
      show collectItemsFrom i (nl :: L) = collectItemsFrom i (l :: L)
      unfold collectItemsFrom
      rw [hj.1]
      by_cases htd : is_todo_line l = true
      · rw [if_pos htd, if_pos htd, hj.2]
      · rw [if_neg htd, if_neg htd]
    | succ j =>
      show collectItemsFrom i (l :: L.set j nl) = collectItemsFrom i (l :: L)
      unfold collectItemsFrom
      have hrec := ih (i + 1) j nl (fun lj hlj => h lj (by simpa using hlj))
      by_cases htd : is_todo_line l = true
      · rw [if_pos htd, if_pos htd, hrec]
      · rw [if_neg htd, if_neg htd]
        exact hrec

theorem descsOf_mem (items : List (Nat × Nat)) (k ind ci : Nat)
    (h : ci ∈ descsOf items k ind) :
    ∃ (j : Nat) (indj : Nat), k < j ∧ items[j]? = some (ci, indj) := by
  unfold descsOf at h
  obtain ⟨pr, hpr, hfst⟩ := List.mem_map.mp h
  have hpr2 : pr ∈ items.drop (k + 1) := (List.takeWhile_sublist _).subset hpr
  obtain ⟨idx, hidx⟩ := List.getElem?_of_mem hpr2
  refine ⟨k + 1 + idx, pr.2, by omega, ?_⟩
  rw [← List.getElem?_drop]
  rw [hidx]
  cases pr
  cases hfst
  rfl

theorem descsOf_gt (items : List (Nat × Nat)) (hsort : SortedItems items)
    (k li indk ind ci : Nat) (hk : items[k]? = some (li, indk))
    (h : ci ∈ descsOf items k ind) : li < ci := by
  obtain ⟨j, indj, hkj, hj⟩ := descsOf_mem items k ind ci h
  exact hsort k j (li, indk) (ci, indj) hkj hk hj

theorem allCongr {α : Type} (L : List α) (p q : α → Bool)
    (h : ∀ x ∈ L, p x = q x) : L.all p = L.all q := by
  induction L with
  | nil => rfl
  | cons a t ih =>
    simp only [List.all_cons]
    rw [h a (by simp), ih (fun x hx => h x (by simp [hx]))]

theorem stepItem_good (items : List (Nat × Nat)) (lines : List Str) (k : Nat)
    (hsort : SortedItems items)
    (hclean : ∀ l ∈ lines, CleanLine l)
    (hcoll : collectItems lines = items) :
    (∀ (i : Nat), ((stepItem items lines k)[i]?).map List.length =
      (lines[i]?).map List.length) ∧
    (∀ l ∈ stepItem items lines k, CleanLine l) ∧
    collectItems (stepItem items lines k) = items ∧
    Settled items (stepItem items lines k) k ∧
    (∀ (j li ind : Nat), items[k]? = some (li, ind) → j ≠ li →
      (stepItem items lines k)[j]? = lines[j]?) ∧
    (items[k]? = none → stepItem items lines k = lines) := by
  cases hk : items[k]? with
  | none =>
    have hstep : stepItem items lines k = lines := by
      unfold stepItem
      rw [hk]
    rw [hstep]
    refine ⟨fun i => rfl, hclean, hcoll, ?_, fun j li ind h _ => rfl, fun _ => rfl⟩
    intro li ind h
    rw [hk] at h
    cases h
  | some p =>
    obtain ⟨li, ind⟩ := p
    obtain ⟨l, hl, htd, hind⟩ := collectItems_lookup lines k li ind (hcoll ▸ hk)
    have hlmem : l ∈ lines := by
      obtain ⟨hh, he⟩ := List.getElem?_eq_some.mp hl
      rw [← he]
      exact List.getElem_mem hh
    have hlclean : CleanLine l := hclean l hlmem
    have hlascii : ∀ c ∈ l, c.toNat < 128 := fun c hc => (hlclean c hc).1
    by_cases hdesc : descsOf items k ind = []
    · have hstep : stepItem items lines k = lines := by
        unfold stepItem
        rw [hk]
        simp only [hdesc, if_true]
      rw [hstep]
      refine ⟨fun i => rfl, hclean, hcoll, ?_, fun j li2 ind2 h _ => rfl, fun h => rfl⟩
      intro li2 ind2 h
      rw [hk] at h
      cases h
      exact Or.inl hdesc
    · by_cases hstate : get_todo_state ((lines[li]?).getD []) =
          some (if (descsOf items k ind).all
            (fun ci => get_todo_state ((lines[ci]?).getD []) = some 'x') then 'x' else ' ')
      · have hstep : stepItem items lines k = lines := by
          unfold stepItem
          rw [hk]
          simp only [if_neg hdesc, if_pos hstate]
        rw [hstep]
        refine ⟨fun i => rfl, hclean, hcoll, ?_, fun j li2 ind2 h _ => rfl, fun h => rfl⟩
        intro li2 ind2 h
        rw [hk] at h
        cases h
        exact Or.inr hstate
      · have hns : (if (descsOf items k ind).all
            (fun ci => get_todo_state ((lines[ci]?).getD []) = some 'x') then 'x' else ' ').toNat
            < 128 := by
          split_ifs <;> decide
        have hrepl : replace_todo_state ((lines[li]?).getD [])
            (if (descsOf items k ind).all
              (fun ci => get_todo_state ((lines[ci]?).getD []) = some 'x') then 'x' else ' ') =
            some (l.set ((l.takeWhile isRustWhitespace).length + 3)
              (if (descsOf items k ind).all
                (fun ci => get_todo_state ((lines[ci]?).getD []) = some 'x') then 'x' else ' ')) := by
          rw [hl]
          simp only [Option.getD_some]
          exact replace_ascii l _ hlascii htd
        have hstep : stepItem items lines k =
            lines.set li (l.set ((l.takeWhile isRustWhitespace).length + 3)
              (if (descsOf items k ind).all
                (fun ci => get_todo_state ((lines[ci]?).getD []) = some 'x') then 'x' else ' ')) := by
          unfold stepItem
          rw [hk]
          simp only [if_neg hdesc, if_neg hstate, hrepl]
        obtain ⟨hplen, hptake, hptodo, hpget, hpmem, hpind⟩ := set_state_props l
          (if (descsOf items k ind).all
            (fun ci => get_todo_state ((lines[ci]?).getD []) = some 'x') then 'x' else ' ')
          hlascii htd hns
        rw [hstep]
        have hagree : ∀ j, j ≠ li → (lines.set li (l.set
            ((l.takeWhile isRustWhitespace).length + 3)
            (if (descsOf items k ind).all
              (fun ci => get_todo_state ((lines[ci]?).getD []) = some 'x') then 'x' else ' ')))[j]?
            = lines[j]? := by
          intro j hj
          exact List.getElem?_set_ne (fun he => hj he.symm)
        refine ⟨?_, ?_, ?_, ?_, ?_, ?_⟩
        · intro i
          by_cases hi : i = li
          · subst hi
            obtain ⟨hh, _⟩ := List.getElem?_eq_some.mp hl
            rw [hl, List.getElem?_set_self hh]
            simp [hplen]
          · rw [hagree i hi]
        · intro l2 hl2
          rcases List.mem_or_eq_of_mem_set hl2 with hl2 | hl2
          · exact hclean l2 hl2
          · subst hl2
            intro c hc
            rcases hpmem c hc with hc2 | hc2
            · exact hlclean c hc2
            · subst hc2
              constructor
              · exact hns
              · split_ifs <;> exact ⟨by decide, by decide⟩
        · conv_rhs => rw [← hcoll]
          show collectItemsFrom 0 _ = collectItemsFrom 0 lines
          apply collectItemsFrom_set
          intro lj hlj
          rw [hl] at hlj
          cases hlj
          exact ⟨by rw [hptodo, htd], hpind⟩
        · intro li2 ind2 h
          rw [hk] at h
          cases h
          refine Or.inr ?_
          obtain ⟨hh, _⟩ := List.getElem?_eq_some.mp hl
          rw [List.getElem?_set_self hh]
          simp only [Option.getD_some]
          rw [hpget]
          congr 1
          congr 1
          apply congrArg (fun b => b = true)
          apply allCongr
          intro ci hci
          have hgt := descsOf_gt items hsort k li ind ind ci hk hci
          rw [hagree ci (by omega)]
        · intro j li2 ind2 h hj
          cases h
          exact hagree j hj
        · intro h
          cases h

theorem strip_chars (racc : Str) (c : Char) (hc : c ∈ stripTrailingCRrev racc) :
    c ∈ racc := by
  unfold stripTrailingCRrev at hc
  split at hc
  · rename_i t
    exact List.mem_cons_of_mem _ (List.mem_reverse.mp hc)
  · exact List.mem_reverse.mp hc

theorem strip_rev (l : Str) (h : ∀ c ∈ l, c ≠ '\r') :
    stripTrailingCRrev l.reverse = l := by
  unfold stripTrailingCRrev
  split
  · rename_i t heq
    have hr : '\r' ∈ l := by
      rw [← List.mem_reverse, heq]
      simp
    exact absurd rfl (h '\r' hr)
  · simp

theorem rustLinesGo_chars (s : Str) :
    ∀ (racc l : Str), l ∈ rustLinesGo racc s → ∀ c ∈ l, c ∈ racc ∨ (c ∈ s ∧ c ≠ '\n') := by
  induction s with
  | nil =>
    intro racc l hl c hc
    unfold rustLinesGo at hl
    by_cases hr : racc = []
    · rw [if_pos hr] at hl
      simp at hl
    · rw [if_neg hr] at hl
      rcases List.mem_singleton.mp hl with rfl
      exact Or.inl (List.mem_reverse.mp hc)
  | cons c0 rest ih =>
    intro racc l hl c hc
    unfold rustLinesGo at hl
    by_cases h0 : c0 = '\n'
    · rw [if_pos h0] at hl
      rcases List.mem_cons.mp hl with hl | hl
      · subst hl
        exact Or.inl (strip_chars racc c hc)
      · rcases ih [] l hl c hc with h | h
        · simp at h
        · exact Or.inr ⟨List.mem_cons_of_mem _ h.1, h.2⟩
    · rw [if_neg h0] at hl
      rcases ih (c0 :: racc) l hl c hc with h | h
      · rcases List.mem_cons.mp h with h | h
        · subst h
          exact Or.inr ⟨List.mem_cons_self _ _, h0⟩
        · exact Or.inl h
      · exact Or.inr ⟨List.mem_cons_of_mem _ h.1, h.2⟩

theorem rustLinesGo_ne (s : Str) :
    ∀ racc, (racc ≠ [] ∨ s ≠ []) → rustLinesGo racc s ≠ [] := by
  induction s with
  | nil =>
    intro racc h
    rcases h with h | h
    · unfold rustLinesGo
      rw [if_neg h]
      simp
    · exact absurd rfl h
  | cons c0 rest ih =>
    intro racc _
    unfold rustLinesGo
    by_cases h0 : c0 = '\n'
    · rw [if_pos h0]
      simp
    · rw [if_neg h0]
      exact ih (c0 :: racc) (Or.inl (by simp))

theorem lastOfCons (x : Char) (ys : Str) (hy : ys ≠ []) :
    (x :: ys).getLast? = ys.getLast? := by
  cases ys with
  | nil => exact absurd rfl hy
  | cons y yt => exact List.getLast?_cons_cons

theorem lastOfConsLine (x : Str) (ys : List Str) (hy : ys ≠ []) :
    (x :: ys).getLast? = ys.getLast? := by
  cases ys with
  | nil => exact absurd rfl hy
  | cons y yt => exact List.getLast?_cons_cons

theorem rustLinesGo_last (s : Str) :
    ∀ racc, (s ≠ [] → s.getLast? ≠ some '\n') → (s = [] → racc ≠ []) →
      ∃ lst, (rustLinesGo racc s).getLast? = some lst ∧ lst ≠ [] := by
  induction s with
  | nil =>
    intro racc _ h2
    have hr := h2 rfl
    unfold rustLinesGo
    rw [if_neg hr]
    exact ⟨racc.reverse, by simp, by simpa using hr⟩
  | cons c0 rest ih =>
    intro racc h1 _
    unfold rustLinesGo
    by_cases h0 : c0 = '\n'
    · rw [if_pos h0]
      have hrest : rest ≠ [] := by
        intro he
        subst he
        subst h0
        exact h1 (by simp) rfl
      have hlast : rest.getLast? = (c0 :: rest).getLast? := (lastOfCons c0 rest hrest).symm
      obtain ⟨lst, hl, hne⟩ := ih [] (fun _ => by rw [hlast]; exact h1 (by simp))
        (fun he => absurd he hrest)
      refine ⟨lst, ?_, hne⟩
      have hgo : rustLinesGo [] rest ≠ [] := by
        intro he
        rw [he] at hl
        simp at hl
      rw [lastOfConsLine _ _ hgo]
      exact hl
    · rw [if_neg h0]
      by_cases hrest : rest = []
      · subst hrest
        exact ih (c0 :: racc) (fun h => by simp at h) (fun _ => by simp)
      · have hlast : rest.getLast? = (c0 :: rest).getLast? := (lastOfCons c0 rest hrest).symm
        exact ih (c0 :: racc) (fun _ => by rw [hlast]; exact h1 (by simp))
          (fun he => absurd he hrest)

theorem rustLinesGo_cons_nl (racc rest : Str) :
    rustLinesGo racc ('\n' :: rest) = stripTrailingCRrev racc :: rustLinesGo [] rest := by
  show (if ('\n' : Char) = '\n' then stripTrailingCRrev racc :: rustLinesGo [] rest
    else rustLinesGo ('\n' :: racc) rest) = _
  rw [if_pos rfl]

theorem rustLinesGo_cons_other (racc rest : Str) (c : Char) (hc : c ≠ '\n') :
    rustLinesGo racc (c :: rest) = rustLinesGo (c :: racc) rest := by
  show (if c = '\n' then stripTrailingCRrev racc :: rustLinesGo [] rest
    else rustLinesGo (c :: racc) rest) = _
  rw [if_neg hc]

theorem rustLinesGo_nil_eq (racc : Str) :
    rustLinesGo racc [] = if racc = [] then [] else [racc.reverse] := rfl

theorem rustLinesGo_append (l : Str) :
    ∀ (racc s : Str), (∀ c ∈ l, c ≠ '\n') →
      rustLinesGo racc (l ++ s) = rustLinesGo (l.reverse ++ racc) s := by
  induction l with
  | nil => intro racc s _; simp
  | cons c0 l2 ih =>
    intro racc s h
    have h0 : c0 ≠ '\n' := h c0 (by simp)
    show rustLinesGo racc (c0 :: (l2 ++ s)) = rustLinesGo ((c0 :: l2).reverse ++ racc) s
    rw [rustLinesGo_cons_other racc (l2 ++ s) c0 h0,
      ih (c0 :: racc) s (fun c hc => h c (by simp [hc]))]
    congr 1
    simp

theorem rustLines_join_term (L : List Str) :
    (∀ l ∈ L, ∀ c ∈ l, c ≠ '\n' ∧ c ≠ '\r') → L ≠ [] →
    rustLines (joinNL L ++ ['\n']) = L := by
  induction L with
  | nil => intro _ h; exact absurd rfl h
  | cons l L2 ih =>
    intro hcl _
    have hlnl : ∀ c ∈ l, c ≠ '\n' := fun c hc => (hcl l (by simp) c hc).1
    have hlcr : ∀ c ∈ l, c ≠ '\r' := fun c hc => (hcl l (by simp) c hc).2
    cases L2 with
    | nil =>
      show rustLinesGo [] (l ++ ['\n']) = [l]
      rw [rustLinesGo_append l [] ['\n'] hlnl, rustLinesGo_cons_nl,
        show l.reverse ++ [] = l.reverse from by simp, strip_rev l hlcr]
      rfl
    | cons l2 L3 =>
      show rustLinesGo [] ((l ++ '\n' :: joinNL (l2 :: L3)) ++ ['\n']) = l :: l2 :: L3
      rw [show (l ++ '\n' :: joinNL (l2 :: L3)) ++ ['\n'] =
        l ++ '\n' :: (joinNL (l2 :: L3) ++ ['\n']) from by simp]
      rw [rustLinesGo_append l [] ('\n' :: (joinNL (l2 :: L3) ++ ['\n'])) hlnl,
        rustLinesGo_cons_nl, show l.reverse ++ [] = l.reverse from by simp,
        strip_rev l hlcr,
        show rustLinesGo [] (joinNL (l2 :: L3) ++ ['\n']) =
          rustLines (joinNL (l2 :: L3) ++ ['\n']) from rfl,
        ih (fun x hx => hcl x (by simp [hx])) (by simp)]

theorem rustLines_join_unterm (L : List Str) :
    (∀ l ∈ L, ∀ c ∈ l, c ≠ '\n' ∧ c ≠ '\r') →
    (∀ lst, L.getLast? = some lst → lst ≠ []) →
    rustLines (joinNL L) = L := by
  induction L with
  | nil => intro _ _; rfl
  | cons l L2 ih =>
    intro hcl hlast
    have hlnl : ∀ c ∈ l, c ≠ '\n' := fun c hc => (hcl l (by simp) c hc).1
    cases L2 with
    | nil =>
      have hlne : l ≠ [] := hlast l (by simp)
      have h0 : rustLinesGo [] l = rustLinesGo [] (l ++ []) := by rw [List.append_nil]
      show rustLinesGo [] l = [l]
      rw [h0, rustLinesGo_append l [] [] hlnl, rustLinesGo_nil_eq,
        if_neg (by simpa using hlne)]
      simp
    | cons l2 L3 =>
      show rustLinesGo [] (l ++ '\n' :: joinNL (l2 :: L3)) = l :: l2 :: L3
      rw [rustLinesGo_append l [] ('\n' :: joinNL (l2 :: L3)) hlnl,
        rustLinesGo_cons_nl, show l.reverse ++ [] = l.reverse from by simp,
        strip_rev l (fun c hc => (hcl l (by simp) c hc).2),
        show rustLinesGo [] (joinNL (l2 :: L3)) = rustLines (joinNL (l2 :: L3)) from rfl,
        ih (fun x hx => hcl x (by simp [hx]))
          (fun lst hl => hlast lst (by
            rw [← hl]
            exact (lastOfConsLine l (l2 :: L3) (by simp)).symm))]

theorem lastAppend (a b : Str) (hb : b ≠ []) : (a ++ b).getLast? = b.getLast? := by
  induction a with
  | nil => rfl
  | cons x a2 ih =>
    show (x :: (a2 ++ b)).getLast? = b.getLast?
    rw [lastOfCons x (a2 ++ b) (by simp [hb]), ih]

theorem joinNL_getLast (L : List Str) :
    ∀ lst, L.getLast? = some lst → lst ≠ [] → (joinNL L).getLast? = lst.getLast? := by
  induction L with
  | nil => intro lst h _; simp at h
  | cons l L2 ih =>
    intro lst h hne
    cases L2 with
    | nil =>
      simp only [List.getLast?_singleton] at h
      cases h
      rfl
    | cons l2 L3 =>
      rw [lastOfConsLine l (l2 :: L3) (by simp)] at h
      have hIH := ih lst h hne
      have hlstne : lst.getLast?.isSome = true := by
        cases hlst : lst.getLast? with
        | none => rw [List.getLast?_eq_none_iff] at hlst; exact absurd hlst hne
        | some c => rfl
      have hjoin_ne : joinNL (l2 :: L3) ≠ [] := by
        intro he
        rw [he] at hIH
        rw [← hIH] at hlstne
        simp at hlstne
      show (l ++ '\n' :: joinNL (l2 :: L3)).getLast? = lst.getLast?
      rw [lastAppend l ('\n' :: joinNL (l2 :: L3)) (by simp),
        lastOfCons '\n' _ hjoin_ne]
      exact hIH

theorem stepItem_length (items : List (Nat × Nat)) (lines : List Str) (k : Nat) :
    (stepItem items lines k).length = lines.length := by
  unfold stepItem
  cases items[k]? with
  | none => rfl
  | some p =>
    obtain ⟨li, ind⟩ := p
    simp only
    repeat' first | rfl | rw [List.length_set] | split

theorem runRev_length (items : List (Nat × Nat)) :
    ∀ (m : Nat) (lines : List Str), (runRev items m lines).length = lines.length := by
  intro m
  induction m with
  | zero => intro lines; rfl
  | succ m ih =>
    intro lines
    show (runRev items m (stepItem items lines m)).length = lines.length
    rw [ih (stepItem items lines m), stepItem_length]

theorem settled_agree (items : List (Nat × Nat)) (lines1 lines2 : List Str) (k : Nat)
    (hagree : ∀ (li ind : Nat), items[k]? = some (li, ind) →
      (lines2[li]? = lines1[li]? ∧ ∀ ci ∈ descsOf items k ind, lines2[ci]? = lines1[ci]?))
    (h : Settled items lines1 k) : Settled items lines2 k := by
  intro li ind hki
  rcases h li ind hki with hd | hs
  · exact Or.inl hd
  · obtain ⟨hli, hdesc⟩ := hagree li ind hki
    refine Or.inr ?_
    rw [hli, hs]
    congr 1
    congr 1
    apply congrArg (fun b => b = true)
    apply allCongr
    intro ci hci
    rw [hdesc ci hci]

theorem runRev_post (items : List (Nat × Nat)) (hsort : SortedItems items) :
    ∀ (m : Nat) (lines : List Str),
      (∀ l ∈ lines, CleanLine l) →
      collectItems lines = items →
      (∀ k, m ≤ k → Settled items lines k) →
      (∀ (i : Nat), ((runRev items m lines)[i]?).map List.length =
        (lines[i]?).map List.length) ∧
      (∀ l ∈ runRev items m lines, CleanLine l) ∧
      collectItems (runRev items m lines) = items ∧
      (∀ k, Settled items (runRev items m lines) k) := by
  intro m
  induction m with
  | zero =>
    intro lines hclean hcoll hset
    exact ⟨fun _ => rfl, hclean, hcoll, fun k => hset k (Nat.zero_le k)⟩
  | succ m ih =>
    intro lines hclean hcoll hset
    obtain ⟨slen, sclean, scoll, ssettled, sagree, snone⟩ :=
      stepItem_good items lines m hsort hclean hcoll
    have hset2 : ∀ k, m ≤ k → Settled items (stepItem items lines m) k := by
      intro k hk
      rcases Nat.lt_or_ge m k with hk2 | hk2
      · apply settled_agree items lines (stepItem items lines m) k ?_ (hset k (by omega))
        intro li ind hki
        cases hm : items[m]? with
        | none =>
          rw [snone hm]
          exact ⟨rfl, fun ci _ => rfl⟩
        | some pm =>
          obtain ⟨lim, indm⟩ := pm
          have hlim_lt : lim < li := hsort m k (lim, indm) (li, ind) hk2 hm hki
          refine ⟨sagree li lim indm hm (by omega), ?_⟩
          intro ci hci
          have hci_gt : li < ci := descsOf_gt items hsort k li ind ind ci hki hci
          exact sagree ci lim indm hm (by omega)
      · have hkm : k = m := by omega
        subst hkm
        exact ssettled
    obtain ⟨rlen, rclean, rcoll, rsettled⟩ := ih (stepItem items lines m) sclean scoll hset2
    refine ⟨?_, rclean, rcoll, rsettled⟩
    intro i
    show ((runRev items m (stepItem items lines m))[i]?).map List.length =
      (lines[i]?).map List.length
    rw [rlen i, slen i]

theorem runRev_id (items : List (Nat × Nat)) :
    ∀ (m : Nat) (lines : List Str), (∀ k, Settled items lines k) →
      runRev items m lines = lines := by
  intro m
  induction m with
  | zero => intro lines _; rfl
  | succ m ih =>
    intro lines hset
    have hstep : stepItem items lines m = lines := by
      cases hm : items[m]? with
      | none =>
        unfold stepItem
        rw [hm]
      | some p =>
        obtain ⟨li, ind⟩ := p
        by_cases hd : descsOf items m ind = []
        · unfold stepItem
          rw [hm]
          simp [hd]
        · have hs := (hset m li ind hm).resolve_left hd
          unfold stepItem
          rw [hm]
          simp only [if_neg hd, if_pos hs]
    show runRev items m (stepItem items lines m) = lines
    rw [hstep]
    exact ih lines hset

theorem memOfGetLast {α : Type} (l : List α) (a : α) (h : l.getLast? = some a) :
    a ∈ l := by
  induction l with
  | nil => simp at h
  | cons x xs ih =>
    cases xs with
    | nil =>
      simp only [List.getLast?_singleton] at h
      cases h
      simp
    | cons y ys =>
      rw [List.getLast?_cons_cons] at h
      exact List.mem_cons_of_mem _ (ih h)

theorem unc_eq (content : Str) : update_nested_checkboxes content =
    joinNL (runRev (collectItems (rustLines content))
      (collectItems (rustLines content)).length (rustLines content)) ++
    (if endsWithNL content then ['\n'] else []) := rfl

/-- C4 (amended): `update_nested_checkboxes` is idempotent on every text of
ASCII characters containing no carriage return.  (The unrestricted claim
fails: multibyte characters break the byte-position indexing —
`C4_counterexample` — and CRLF sequences are normalized by the
`lines()`/`join` round trip.) -/
theorem C4_nested_idempotent_ascii (T : Str)
    (hA : ∀ c ∈ T, c.toNat < 128 ∧ c ≠ '\r') :
    update_nested_checkboxes (update_nested_checkboxes T) =
      update_nested_checkboxes T := by
  by_cases hT : T = []
  · subst hT
    decide
  · have hclean0 : ∀ l ∈ rustLines T, CleanLine l := by
      intro l hl c hc
      rcases rustLinesGo_chars T [] l hl c hc with h | h
      · simp at h
      · exact ⟨(hA c h.1).1, h.2, (hA c h.1).2⟩
    have hsort : SortedItems (collectItems (rustLines T)) := collectItems_sorted _
    obtain ⟨rlen, rclean, rcoll, rsettled⟩ :=
      runRev_post (collectItems (rustLines T)) hsort
        (collectItems (rustLines T)).length (rustLines T) hclean0 rfl
        (fun k hk li ind h => by
          rw [List.getElem?_eq_none hk] at h
          cases h)
    have hcl2 : ∀ l ∈ runRev (collectItems (rustLines T))
        (collectItems (rustLines T)).length (rustLines T), ∀ c ∈ l, c ≠ '\n' ∧ c ≠ '\r' :=
      fun l hl c hc => ⟨(rclean l hl c hc).2.1, (rclean l hl c hc).2.2⟩
    have hT0ne : rustLines T ≠ [] := rustLinesGo_ne T [] (Or.inr hT)
    have hlen_eq : (runRev (collectItems (rustLines T))
        (collectItems (rustLines T)).length (rustLines T)).length =
        (rustLines T).length := runRev_length _ _ _
    by_cases hNL : endsWithNL T = true
    · have hL1ne : runRev (collectItems (rustLines T))
          (collectItems (rustLines T)).length (rustLines T) ≠ [] := by
        intro he
        rw [he] at hlen_eq
        exact hT0ne (List.length_eq_zero.mp hlen_eq.symm)
      have hfT : update_nested_checkboxes T =
          joinNL (runRev (collectItems (rustLines T))
            (collectItems (rustLines T)).length (rustLines T)) ++ ['\n'] := by
        rw [unc_eq T, if_pos hNL]
      have hlines : rustLines (update_nested_checkboxes T) =
          runRev (collectItems (rustLines T))
            (collectItems (rustLines T)).length (rustLines T) := by
        rw [hfT]
        exact rustLines_join_term _ hcl2 hL1ne
      have hends : endsWithNL (update_nested_checkboxes T) = true := by
        rw [hfT]
        unfold endsWithNL
        rw [lastAppend _ ['\n'] (by simp)]
        rfl
      rw [unc_eq (update_nested_checkboxes T), hlines, hends, if_pos rfl, rcoll,
        runRev_id _ _ _ rsettled, ← hfT]
    · have hNL2 : endsWithNL T = false := by
        cases he : endsWithNL T with
        | false => rfl
        | true => exact absurd he hNL
      obtain ⟨lst0, hlst0, hlst0ne⟩ := rustLinesGo_last T []
        (fun _ hcontra => by
          unfold endsWithNL at hNL2
          rw [hcontra] at hNL2
          simp at hNL2)
        (fun he => absurd he hT)
      obtain ⟨lst1, hlst1, hlst1ne⟩ : ∃ lst, (runRev (collectItems (rustLines T))
          (collectItems (rustLines T)).length (rustLines T)).getLast? = some lst ∧
          lst ≠ [] := by
        have hlst0b : (rustLines T)[(rustLines T).length - 1]? = some lst0 := by
          rw [← List.getLast?_eq_getElem? (rustLines T)]
          exact hlst0
        have hr := rlen ((rustLines T).length - 1)
        rw [hlst0b] at hr
        cases hx : (runRev (collectItems (rustLines T))
            (collectItems (rustLines T)).length (rustLines T))[(rustLines T).length - 1]? with
        | none =>
          rw [hx] at hr
          simp at hr
        | some lst1 =>
          rw [hx] at hr
          simp at hr
          refine ⟨lst1, ?_, ?_⟩
          · rw [List.getLast?_eq_getElem? _, hlen_eq]
            exact hx
          · intro he
            subst he
            exact hlst0ne (List.length_eq_zero.mp (by simpa using hr.symm))
      have hfT : update_nested_checkboxes T =
          joinNL (runRev (collectItems (rustLines T))
            (collectItems (rustLines T)).length (rustLines T)) := by
        rw [unc_eq T, if_neg (by rw [hNL2]; exact Bool.false_ne_true)]
        simp
      have hlines : rustLines (update_nested_checkboxes T) =
          runRev (collectItems (rustLines T))
            (collectItems (rustLines T)).length (rustLines T) := by
        rw [hfT]
        exact rustLines_join_unterm _ hcl2
          (fun lst h => by
            rw [hlst1] at h
            cases h
            exact hlst1ne)
      have hends : endsWithNL (update_nested_checkboxes T) = false := by
        rw [hfT]
        unfold endsWithNL
        rw [joinNL_getLast _ lst1 hlst1 hlst1ne]
        have hlst1mem : lst1 ∈ runRev (collectItems (rustLines T))
            (collectItems (rustLines T)).length (rustLines T) :=
          memOfGetLast _ _ hlst1
        cases hc : lst1.getLast? with
        | none => simp
        | some c =>
          have hcmem : c ∈ lst1 := memOfGetLast _ _ hc
          have hcne : c ≠ '\n' := (hcl2 lst1 hlst1mem c hcmem).1
          simp [hcne]
      rw [unc_eq (update_nested_checkboxes T), hlines, hends,
        if_neg Bool.false_ne_true, rcoll, runRev_id _ _ _ rsettled, ← hfT]
      simp

/-- C4 witness: the theorem applied to the spec's three-level checklist
scenario, an ASCII text without carriage returns. -/
theorem C4_idempotent_witness :
    (∀ c ∈ exC4W, c.toNat < 128 ∧ c ≠ '\r') ∧
    update_nested_checkboxes (update_nested_checkboxes exC4W) =
      update_nested_checkboxes exC4W :=
  ⟨by decide, C4_nested_idempotent_ascii exC4W (by decide)⟩

end ZkSpec
